import Mathlib

/-!
A shallow embedding of the relaxed-reachability core of L-RPG
(src/SAS/dtg_reachability.cpp together with its headers and the
equivalent-object-group translation unit), followed by theorems that
settle the specification claims against these definitions.

Objects, variable-domain identifiers, predicates, DTG nodes and
transitions are represented by natural-number identifiers.  A
variable-domain identifier stands for the address of the domain vector
inside the bindings object; the source keys several maps on that
address, so identifier equality models pointer equality of domains.
-/

namespace LRPG

/-- A bounded atom whose terms are still attached to the bindings: each
term position carries the identifier of its variable domain.  The
props field lists the invariable indexes of the properties attached to
the bounded atom (the source filters out NO_INVARIABLE_INDEX; the list
holds the remaining indexes). -/
structure GAtom where
  pred : Nat
  terms : List Nat
  props : List Nat
deriving DecidableEq, Inhabited

/-- A concrete fact: a predicate together with the contents of the
variable domain at every term position.  Established facts, initial
facts and the finalized supporting facts produced by the support finder
are represented this way. -/
structure CFact where
  pred : Nat
  doms : List (List Nat)
deriving DecidableEq, Inhabited

/-- The variable-assignment map of the support finder: an association
list from variable-domain identifiers to the object list currently
assigned to that domain. -/
abbrev AssignMap := List (Nat × List Nat)

def amLookup : AssignMap → Nat → Option (List Nat)
  | [], _ => none
  | (k, v) :: rest, d => if k = d then some v else amLookup rest d

def amInsert : AssignMap → Nat → List Nat → AssignMap
  | [], d, v => [(d, v)]
  | (k, w) :: rest, d, v =>
    if k = d then (d, v) :: rest else (k, w) :: amInsert rest d v

/-- Insertion sort used to model std sort on object lists (the order on
object identifiers models the pointer order the source sorts by). -/
def insertSorted (x : Nat) : List Nat → List Nat
  | [] => [x]
  | y :: ys => if x ≤ y then x :: y :: ys else y :: insertSorted x ys

def sortObjs : List Nat → List Nat
  | [] => []
  | x :: xs => insertSorted x (sortObjs xs)

/-- The std set_intersection algorithm on two sorted ranges, as used at
dtg_reachability.cpp line 1120.  Every step consumes at least one
element of one range, so the summed length is adequate fuel and the
zero-fuel branch is unreachable from the wrapper below. -/
def siFuel : Nat → List Nat → List Nat → List Nat
  | 0, _, _ => []
  | _ + 1, [], _ => []
  | _ + 1, _ :: _, [] => []
  | fuel + 1, a :: as_, b :: bs =>
    if a < b then siFuel fuel as_ (b :: bs)
    else if b < a then siFuel fuel (a :: as_) bs
    else a :: siFuel fuel as_ bs

def setIntersection (xs ys : List Nat) : List Nat :=
  siFuel (xs.length + ys.length) xs ys

/-- The per-term loop of getSupportingFacts (dtg_reachability.cpp lines
1083 to 1133).  The input pairs each goal-term variable-domain
identifier with the domain contents of the candidate fact at the same
position.  It returns none exactly when some intersection comes out
empty (terms_supported = false), otherwise the updated clone of the
assignment map. -/
def bindTerms : AssignMap → List (Nat × List Nat) → Option AssignMap
  | asg, [] => some asg
  | asg, (d, factDom) :: rest =>
    match amLookup asg d with
    | none => bindTerms (amInsert asg d factDom) rest
    | some existing =>
      let inter := setIntersection (sortObjs factDom) (sortObjs existing)
      if inter.isEmpty then none
      else bindTerms (amInsert asg d inter) rest

/-- The tuple synthesized at full depth (dtg_reachability.cpp lines 1144
to 1172): one fresh bounded atom per goal atom, every term domain made
equal to the final assignment of its variable domain.  The source reads
the assignment map with the indexing operator; every goal-term domain
identifier is present at this point, so the default is never used. -/
def finalizeTuple (asg : AssignMap) (allAtoms : List GAtom) : List CFact :=
  allAtoms.map fun a => ⟨a.pred, a.terms.map fun d => (amLookup asg d).getD []⟩

/-- The recursive body of getSupportingFacts.  The pending list is the
suffix of atoms_to_achieve that still needs support (the source indexes
atoms_to_achieve by the size of initial_supporting_facts; only that
size is consumed, so the suffix is the faithful residue).  The third
explicit argument is the remaining tail of initial_facts at the current
depth; recursion to the next depth restarts from allFacts.  When the
pending list is empty the source has already aborted on its entry
assertion, so that case is unreachable from the wrapper below. -/
def gsfGo (canUnify : CFact → GAtom → Bool) (allAtoms : List GAtom)
    (allFacts : List CFact) :
    AssignMap → List GAtom → List CFact → List (List CFact)
  | _, _, [] => []
  | _, [], _ :: _ => []
  | asg, a :: pending, f :: fs =>
    (if canUnify f a then
      match bindTerms asg (a.terms.zip f.doms) with
      | none => []
      | some asg2 =>
        match pending with
        | [] => [finalizeTuple asg2 allAtoms]
        | p :: ps => gsfGo canUnify allAtoms allFacts asg2 (p :: ps) allFacts
    else []) ++ gsfGo canUnify allAtoms allFacts asg (a :: pending) fs
termination_by _ pending facts => (pending.length, facts.length)

/-- DTGReachability::getSupportingFacts (dtg_reachability.cpp lines 1059
to 1179).  The accLen argument is the size of the
initial_supporting_facts accumulator (only its size is ever read).  The
entry assertion atoms_to_achieve.size() greater than
initial_supporting_facts.size() is modelled by the option: none is the
aborted run.  Recursive calls always satisfy the assertion, so the body
is the total function gsfGo. -/
def getSupportingFacts (canUnify : CFact → GAtom → Bool)
    (atomsToAchieve : List GAtom) (asg : AssignMap) (accLen : Nat)
    (initialFacts : List CFact) : Option (List (List CFact)) :=
  if accLen < atomsToAchieve.length then
    some (gsfGo canUnify atomsToAchieve initialFacts asg
      (atomsToAchieve.drop accLen) initialFacts)
  else none

/-!
The REACHABILITY equivalent-object machinery of the unnamed translation
unit (src/unnamed/part_000).  EOGs and reachable facts are stored in
arenas addressed by natural numbers; the arenas model the pointer graph
of the source.
-/

/-- ReachableFact (reachable_fact.h): the atom identity, the EOG
identifier occupying each term slot (term_domain_mapping_) and the
replaced_by tombstone as an optional fact identifier. -/
structure RFact where
  pred : Nat
  terms : List Nat
  replacedBy : Option Nat
deriving DecidableEq, Inhabited

/-- EquivalentObject: the object and the identifiers of the initial
reachable facts that mention it. -/
structure EqObj where
  obj : Nat
  initialFacts : List Nat
deriving DecidableEq, Inhabited

/-- EquivalentObjectGroup (part_000).  mergedAt models
merged_at_iteration_, with none standing for the unsigned-max sentinel
of an EOG that never merged. -/
structure EOG where
  isGrounded : Bool
  link : Option Nat
  fingerPrint : List Bool
  mergedAt : Option Nat
  eqObjs : List EqObj
  rfacts : List Nat
  sizePerIteration : List Nat
deriving DecidableEq, Inhabited

/-- The state owned by EquivalentObjectGroupManager: the EOG arena (the
equivalent_groups_ vector, addressed by position) and the reachable-fact
arena (the memory pool). -/
structure EOGState where
  n : Nat
  eogs : Nat → EOG
  m : Nat
  facts : Nat → RFact

def getEog (st : EOGState) (g : Nat) : EOG := st.eogs g

def setEog (st : EOGState) (g : Nat) (e : EOG) : EOGState :=
  { st with eogs := fun k => if k = g then e else st.eogs k }

def getFact (st : EOGState) (i : Nat) : RFact := st.facts i

def setFact (st : EOGState) (i : Nat) (f : RFact) : EOGState :=
  { st with facts := fun k => if k = i then f else st.facts k }

/-- Modelled from the spec: isRootNode is declared in the missing
equivalent_object_group.h; per the spec the root link is null and all
public operations follow links to the root. -/
def isRoot (st : EOGState) (g : Nat) : Bool := (getEog st g).link.isNone

/-- Link chasing with explicit fuel; getRootNode (part_000 lines 589 to
594) recurses along link_ until it reaches the root. -/
def rootOf (st : EOGState) : Nat → Nat → Nat
  | 0, g => g
  | fuel + 1, g =>
    match (getEog st g).link with
    | none => g
    | some l => rootOf st fuel l

/-- getRootNode: the arena size bounds the length of any acyclic link
chain, so it serves as fuel. -/
def getRoot (st : EOGState) (g : Nat) : Nat := rootOf st st.n g

/-- The comparison merged_at_iteration_ less-or-equal iteration, with
the none sentinel standing for unsigned max (never satisfied for the
iterations the engine uses). -/
def mergedLe : Option Nat → Nat → Bool
  | none, _ => false
  | some k, i => k ≤ i

/-- EquivalentObjectGroup::contains(object, iteration) (part_000 lines
204 to 221).  The fuel bounds link chasing; the source asserts that
link_ is non-null whenever merged_at_iteration_ is at most the queried
iteration, and that size_per_iteration_ is long enough, so the false
fallbacks model unreachable aborted runs. -/
def containsAt (st : EOGState) : Nat → Nat → Nat → Nat → Bool
  | 0, _, _, _ => false
  | fuel + 1, g, obj, iter =>
    let e := getEog st g
    if mergedLe e.mergedAt iter then
      match e.link with
      | some l => containsAt st fuel l obj iter
      | none => false
    else
      (e.eqObjs.take (e.sizePerIteration.getD iter 0)).any
        fun eo => eo.obj == obj

/-- EquivalentObject::isInitialStateReachable (part_000 lines 83 to
120): every initial fact of the object must be matched by some member
of the reachable-fact list.  The equivalence test on reachable facts is
the oracle parameter fEquiv, standing for
ReachableFact::isEquivalentTo whose translation unit is absent from
src. -/
def isInitialStateReachable (fEquiv : EOGState → Nat → Nat → Bool)
    (st : EOGState) (eo : EqObj) (rfs : List Nat) : Bool :=
  eo.initialFacts.all fun i => rfs.any fun r => fEquiv st i r

/-- The existential scan of tryToMergeWith (part_000 lines 345 to 373):
some equivalent object of the scanned group reaches its initial state
inside the given reachable-fact list. -/
def anyObjectReachesInitial (fEquiv : EOGState → Nat → Nat → Bool)
    (st : EOGState) (eos : List EqObj) (rfs : List Nat) : Bool :=
  eos.any fun eo => isInitialStateReachable fEquiv st eo rfs

/-- Modelled from the spec: ReachableFact::updateTermsToRoot is
declared in src/SAS/reachable_fact.h with its implementation absent;
per the header documentation it rewrites every term slot to the root of
its group and reports whether any slot changed. -/
def updateTermsToRoot (st : EOGState) (fid : Nat) : EOGState × Bool :=
  let f := getFact st fid
  let newTerms := f.terms.map (getRoot st)
  (setFact st fid { f with terms := newTerms }, newTerms ≠ f.terms)

/-- Modelled from the spec: ReachableFact::replaceBy records the
subsuming fact in replaced_by_ (documented in
src/SAS/reachable_fact.h). -/
def replaceBy (st : EOGState) (fid repl : Nat) : EOGState :=
  setFact st fid { getFact st fid with replacedBy := some repl }

/-- ReachableFact::isMarkedForRemoval, inline in
src/SAS/reachable_fact.h: the tombstone is set. -/
def isMarkedForRemoval (st : EOGState) (fid : Nat) : Bool :=
  (getFact st fid).replacedBy.isSome

/-- The collection of affected groups performed when the first loop of
merge drops a fact (part_000 lines 464 to 472): every term EOG of the
fact other than the merging group itself is appended once. -/
def collectAffectedSkip (selfId : Nat) (terms : List Nat)
    (affected : List Nat) : List Nat :=
  terms.foldl
    (fun acc t => if t ≠ selfId ∧ ¬ acc.contains t then acc ++ [t] else acc)
    affected

/-- The collection of affected groups performed when a merged-in fact is
found identical to an existing one (part_000 lines 524 to 532): here the
comparison against the merging group is commented out in the source, so
every term EOG is appended once. -/
def collectAffectedAll (terms : List Nat) (affected : List Nat) :
    List Nat :=
  terms.foldl (fun acc t => if ¬ acc.contains t then acc ++ [t] else acc)
    affected

/-- The first loop of EquivalentObjectGroup::merge (part_000 lines 454
to 476): walk the reachable facts of the absorbing group in reverse and
erase every fact having a term whose EOG is not a root, collecting the
term EOGs of the erased facts.  Reverse-iterator erasure keeps the
relative order of the survivors, so the net effect is a filter; the
affected list accumulates in reverse traversal order as in the
source. -/
def mergeFirstLoop (st : EOGState) (a : Nat) :
    List Nat → List Nat → List Nat × List Nat
  | [], aff => ([], aff)
  | fid :: rest, aff =>
    let pr := mergeFirstLoop st a rest aff
    if (getFact st fid).terms.any (fun t => ¬ isRoot st t) then
      (pr.1, collectAffectedSkip a (getFact st fid).terms pr.2)
    else
      (fid :: pr.1, pr.2)

/-- The second loop of EquivalentObjectGroup::merge (part_000 lines 478
to 544), walking the reachable facts of the merged-in group in order.
Facts already marked for removal are skipped.  Otherwise the terms are
rewritten to roots; if that changed anything and an identical fact is
already among the updated facts, the fact is tombstoned and the term
EOGs recorded as affected, else it joins the updated facts; every fact
not tombstoned here is pushed onto the reachable facts of the absorbing
group a.  The identity test fIdent stands for
ReachableFact::isIdenticalTo whose translation unit is absent from
src. -/
def mergeOtherLoop (fIdent : EOGState → Nat → Nat → Bool) (a : Nat) :
    EOGState → List Nat → List Nat → List Nat →
      EOGState × List Nat × List Nat
  | st, [], updated, aff => (st, updated, aff)
  | st, fid :: rest, updated, aff =>
    if isMarkedForRemoval st fid then
      mergeOtherLoop fIdent a st rest updated aff
    else
      let st1 := (updateTermsToRoot st fid).1
      if (updateTermsToRoot st fid).2 then
        match updated.find? (fun u => fIdent st1 u fid) with
        | some u =>
          let st2 := replaceBy st1 fid u
          let aff2 := collectAffectedAll (getFact st2 fid).terms aff
          mergeOtherLoop fIdent a st2 rest updated aff2
        | none =>
          let eA := getEog st1 a
          let st2 := setEog st1 a { eA with rfacts := eA.rfacts ++ [fid] }
          mergeOtherLoop fIdent a st2 rest (updated ++ [fid]) aff
      else
        let eA := getEog st1 a
        let st2 := setEog st1 a { eA with rfacts := eA.rfacts ++ [fid] }
        mergeOtherLoop fIdent a st2 rest updated aff

/-- EquivalentObjectGroup::merge (part_000 lines 438 to 558), merging
group b into group a: append the equivalent objects of b, set the link
of b, drop the stale facts of a while collecting affected groups, then
fold the facts of b in. -/
def mergeEOG (fIdent : EOGState → Nat → Nat → Bool) (st : EOGState)
    (a b : Nat) (affected : List Nat) : EOGState × List Nat :=
  let eA := getEog st a
  let eB := getEog st b
  let st1 := setEog st a { eA with eqObjs := eA.eqObjs ++ eB.eqObjs }
  let st2 := setEog st1 b { getEog st1 b with link := some a }
  let fl := mergeFirstLoop st2 a (getEog st2 a).rfacts affected
  let st3 := setEog st2 a { getEog st2 a with rfacts := fl.1 }
  let ol := mergeOtherLoop fIdent a st3 (getEog st3 b).rfacts fl.1 fl.2
  (ol.1, ol.2.2)

/-- The body of tryToMergeWith once both arguments are known to be
roots (part_000 lines 333 to 377): compare fingerprints (memcmp; the
source asserts equal sizes), then require an equivalent object of each
group to reach its initial state in the reachable facts of the other,
and on success merge b into a and stamp merged_at_iteration_ on b. -/
def tryToMergeCore (fEquiv fIdent : EOGState → Nat → Nat → Bool)
    (st : EOGState) (a b : Nat) (affected : List Nat) (iter : Nat) :
    EOGState × List Nat × Bool :=
  if (getEog st a).fingerPrint ≠ (getEog st b).fingerPrint then
    (st, affected, false)
  else if ¬ anyObjectReachesInitial fEquiv st (getEog st b).eqObjs
      (getEog st a).rfacts then
    (st, affected, false)
  else if ¬ anyObjectReachesInitial fEquiv st (getEog st a).eqObjs
      (getEog st b).rfacts then
    (st, affected, false)
  else
    let pr := mergeEOG fIdent st a b affected
    let eB := getEog pr.1 b
    (setEog pr.1 b { eB with mergedAt := some iter }, pr.2, true)

/-- EquivalentObjectGroup::tryToMergeWith (part_000 lines 307 to 378).
The grounded test fires first on the receiver and argument as given;
equal roots succeed without merging; otherwise the source redirects to
the root nodes, whose recursive call re-checks grounding on the roots
and then falls through to the core (the recursion is unrolled here, as
roots cannot redirect again). -/
def tryToMergeWith (fEquiv fIdent : EOGState → Nat → Nat → Bool)
    (st : EOGState) (a b : Nat) (affected : List Nat) (iter : Nat) :
    EOGState × List Nat × Bool :=
  if (getEog st a).isGrounded ∨ (getEog st b).isGrounded then
    (st, affected, false)
  else if getRoot st a = getRoot st b then (st, affected, true)
  else if (getEog st a).link.isSome ∨ (getEog st b).link.isSome then
    let ra := getRoot st a
    let rb := getRoot st b
    if (getEog st ra).isGrounded ∨ (getEog st rb).isGrounded then
      (st, affected, false)
    else tryToMergeCore fEquiv fIdent st ra rb affected iter
  else tryToMergeCore fEquiv fIdent st a b affected iter

/-- EquivalentObjectGroup::updateEquivalences (part_000 lines 571 to
587): a root tries to merge with every root in the manager list, and
then every group, root or not, appends its current equivalent-object
count to size_per_iteration_. -/
def updateEquivalencesEOG (fEquiv fIdent : EOGState → Nat → Nat → Bool)
    (st : EOGState) (g : Nat) (allIds : List Nat) (affected : List Nat)
    (iter : Nat) : EOGState × List Nat :=
  let p :=
    if isRoot st g then
      allIds.foldl
        (fun (p : EOGState × List Nat) e =>
          if isRoot p.1 e then
            let q := tryToMergeWith fEquiv fIdent p.1 g e p.2 iter
            (q.1, q.2.1)
          else p)
        (st, affected)
    else (st, affected)
  let e := getEog p.1 g
  (setEog p.1 g
      { e with sizePerIteration := e.sizePerIteration ++ [e.eqObjs.length] },
    p.2)

/-- EquivalentObjectGroup::deleteRemovedFacts (part_000 lines 560 to
569): reverse-iterator erasure of every fact marked for removal, which
filters the list keeping order. -/
def deleteRemovedFacts (st : EOGState) (g : Nat) : EOGState :=
  let e := getEog st g
  setEog st g
    { e with rfacts := e.rfacts.filter fun f => ¬ isMarkedForRemoval st f }

/-- The loop of the manager update over its group list. -/
def managerFold (fEquiv fIdent : EOGState → Nat → Nat → Bool)
    (allIds : List Nat) (iter : Nat) (l : List Nat)
    (p : EOGState × List Nat) : EOGState × List Nat :=
  l.foldl
    (fun (p : EOGState × List Nat) g =>
      updateEquivalencesEOG fEquiv fIdent p.1 g allIds p.2 iter)
    p

/-- The cleanup loop of the manager update: purge removed facts from
every affected group that is still a root. -/
def cleanupFold (l : List Nat) (st : EOGState) : EOGState :=
  l.foldl (fun s g => if isRoot s g then deleteRemovedFacts s g else s) st

/-- EquivalentObjectGroupManager::updateEquivalences (part_000 lines
696 to 713): run the per-group update over the whole arena in order,
then purge removed facts from every affected group that is still a
root. -/
def updateEquivalencesManager
    (fEquiv fIdent : EOGState → Nat → Nat → Bool) (st : EOGState)
    (iter : Nat) : EOGState :=
  let ids := List.range st.n
  let p := managerFold fEquiv fIdent ids iter ids (st, [])
  cleanupFold p.2 p.1

/-!
The DTGReachability engine of src/SAS/dtg_reachability.cpp: the SAS
equivalent-object-group manager of that translation unit, transition
firing, the inner fixed point and the outer analysis loop.
-/

/-- A transition: identifier, from node, to node, the preconditions as
bounded atoms at the transition step, and the variable-domain
identifiers of the action variables at that step. -/
structure Trans where
  tid : Nat
  fromN : Nat
  toN : Nat
  preconds : List GAtom
  actionVars : List Nat
deriving DecidableEq, Inhabited

/-- The external collaborators of the engine: the DTG, the bindings
oracle and the object catalog.  Every field models an interface the
source consumes from outside this translation unit. -/
structure Env where
  nodes : List Nat
  objects : List Nat
  nodeAtoms : Nat → List GAtom
  nodeTrans : Nat → List Trans
  dval : Nat → List Nat
  canUnifyFG : CFact → GAtom → Bool
  canUnifyCC : CFact → CFact → Bool
  termEquiv : List Nat → List Nat → Bool
  areEquivCC : CFact → CFact → Bool
  objType : Nat → Nat
  extDeps : Nat → List (Trans × List Nat)
  matchingNodes : Nat → Nat → List Nat

/-- An equivalent object group of the SAS manager in
dtg_reachability.cpp (lines 19 to 137): the map from objects to their
initial DTG nodes, modelled as an association list. -/
structure SASGroup where
  initialMapping : List (Nat × List Nat)
deriving DecidableEq, Inhabited

/-- The engine state threaded through performReachabilityAnalsysis:
established facts, achieved transition identifiers, the supported
tuples per DTG node, the reachable-node lists per DTG node and the SAS
equivalent groups. -/
structure Engine where
  established : List CFact
  achieved : List Nat
  supported : Nat → List (List CFact)
  reachable : Nat → List Nat
  groups : List SASGroup

/-- Push with membership guard, as used for reachable_nodes_ updates. -/
def addUnique (l : List Nat) (x : Nat) : List Nat :=
  if l.contains x then l else l ++ [x]

/-- DTGReachability::makeReachable (dtg_reachability.cpp lines 315 to
344): refuse the tuple when an already recorded tuple of the same size
is position-wise equivalent under the bindings, otherwise push it. -/
def makeReachable (env : Env) (st : Engine) (n : Nat)
    (tuple : List CFact) : Engine :=
  let dup := (st.supported n).any fun t =>
    t.length == tuple.length &&
      (t.zip tuple).all fun p => env.areEquivCC p.1 p.2
  if dup then st
  else { st with
    supported := fun k =>
      if k = n then st.supported n ++ [tuple] else st.supported k }

/-- One round of reachable-node propagation: for every node d and every
node t currently reachable from d (other than d itself), merge the
reachable list of d into the reachable list of t with duplicate
guards.  DTGReachability::propagateReachableNodes (lines 250 to 313)
drives this rule with a worklist until closure; the round-based
iteration below reaches the same closure. -/
def propagateOnce (env : Env) (reach : Nat → List Nat) :
    Nat → List Nat :=
  env.nodes.foldl
    (fun r d =>
      (r d).foldl
        (fun r2 t =>
          if t = d then r2
          else fun k =>
            if k = t then (r d).foldl addUnique (r2 t) else r2 k)
        r)
    reach

/-- propagateReachableNodes: the total size of all reachable lists is
bounded by the square of the node count, so that many rounds reach the
worklist fixed point. -/
def propagateReachableNodes (env : Env) (reach : Nat → List Nat) :
    Nat → List Nat :=
  (propagateOnce env)^[env.nodes.length * env.nodes.length + 1] reach

/-- Assignment of one action parameter (dtg_reachability.cpp lines 803
to 855): the first binding of a variable wins; the source merely
asserts that any repeated binding carries an equal domain. -/
def assignParam (params : List (Option (List Nat))) (v : Nat)
    (dom : List Nat) : List (Option (List Nat)) :=
  match params.getD v none with
  | some _ => params
  | none => params.set v (some dom)

/-- The action-parameter computation over the first supporting tuple
(dtg_reachability.cpp lines 770 to 859): for every supporting atom, for
every action variable and for every term of the matching precondition,
a variable whose domain identifier equals the term domain identifier
receives the domain of the supporting atom at that term position. -/
def computeActionParams (t : Trans) (tuple : List CFact) :
    List (Option (List Nat)) :=
  (tuple.zip t.preconds).foldl
    (fun (params : List (Option (List Nat))) (fp : CFact × GAtom) =>
      t.actionVars.enum.foldl
        (fun (ps : List (Option (List Nat))) (ve : Nat × Nat) =>
          fp.2.terms.enum.foldl
            (fun (ps2 : List (Option (List Nat))) (je : Nat × Nat) =>
              if ve.2 = je.2 then
                assignParam ps2 ve.1 (fp.1.doms.getD je.1 [])
              else ps2)
            ps)
        params)
    (t.actionVars.map fun _ => none)

/-- Building one achieved fact for a to-node atom (dtg_reachability.cpp
lines 873 to 955): every term must match some action variable by domain
identifier (the first match wins); an unassigned parameter falls back
to the own domain of the term.  none models the not-bounded case in
which the source abandons the remaining to-node atoms. -/
def buildAchieved (env : Env) (t : Trans)
    (params : List (Option (List Nat))) (a : GAtom) : Option CFact :=
  (a.terms.mapM fun d =>
      match t.actionVars.enum.find? (fun (ve : Nat × Nat) => ve.2 == d) with
      | none => none
      | some ve => some ((params.getD ve.1 none).getD (env.dval d))).map
    fun ds => ⟨a.pred, ds⟩

/-- The duplicate test guarding the push onto established_facts
(dtg_reachability.cpp lines 957 to 986): some established fact unifies
with the achieved fact under the bindings and every corresponding pair
of term domains is equivalent. -/
def factPresent (env : Env) (est : List CFact) (g : CFact) : Bool :=
  est.any fun b =>
    env.canUnifyCC b g &&
      (b.doms.zip g.doms).all fun p => env.termEquiv p.1 p.2

/-- The conditional push of an achieved fact onto established_facts
(dtg_reachability.cpp lines 988 to 994). -/
def addAchieved (env : Env) (est : List CFact) (g : CFact) :
    List CFact :=
  if factPresent env est g then est else est ++ [g]

/-- The loop over the to-node atoms (dtg_reachability.cpp lines 865 to
996), threading established_facts and collecting the achievers; a
to-node atom without valid assignments stops the loop, leaving the
achiever list short. -/
def processToNodeAtoms (env : Env) (t : Trans)
    (params : List (Option (List Nat))) :
    List GAtom → List CFact → List CFact × List CFact
  | [], est => (est, [])
  | a :: rest, est =>
    match buildAchieved env t params a with
    | none => (est, [])
    | some g =>
      let est2 := addAchieved env est g
      let pr := processToNodeAtoms env t params rest est2
      (pr.1, g :: pr.2)

/-- Processing one possible assignment of a transition
(dtg_reachability.cpp lines 695 to 1016): seed the term assignments
from the from-node atoms, search supporting tuples for the
preconditions, and on success mark the transition achieved, extend the
reachable nodes of the from node, fire the to node and record the
achievers when complete.  A transition with an empty precondition list
would abort on the support-finder entry assertion; the empty fallback
models the unreached value. -/
def fireOnAssignment (env : Env) (t : Trans) (st : Engine)
    (pa : List CFact) : Engine × Bool :=
  let fromAtoms := env.nodeAtoms t.fromN
  let termAsg : AssignMap :=
    (fromAtoms.zip pa).foldl
      (fun (m : AssignMap) (ap : GAtom × CFact) =>
        ap.1.terms.enum.foldl
          (fun (m2 : AssignMap) (je : Nat × Nat) =>
            amInsert m2 je.2 (ap.2.doms.getD je.1 []))
          m)
      []
  match (getSupportingFacts env.canUnifyFG t.preconds termAsg 0
      st.established).getD [] with
  | [] => (st, false)
  | tup :: _ =>
    let st1 := { st with
      achieved :=
        if st.achieved.contains t.tid then st.achieved
        else st.achieved ++ [t.tid],
      reachable := fun k =>
        if k = t.fromN then addUnique (st.reachable t.fromN) t.toN
        else st.reachable k }
    let params := computeActionParams t tup
    let pr := processToNodeAtoms env t params (env.nodeAtoms t.toN)
      st1.established
    let st2 := { st1 with established := pr.1 }
    if pr.2.length = (env.nodeAtoms t.toN).length then
      (makeReachable env st2 t.toN pr.2, true)
    else (st2, true)

/-- Processing one transition of the open list (dtg_reachability.cpp
lines 681 to 1026): skip when already achieved, otherwise fire on every
supported tuple of the from node (snapshot taken at entry, as the
source iterates the vector it fetched). -/
def processTransition (env : Env) (st : Engine) (t : Trans) :
    Engine × Bool :=
  if st.achieved.contains t.tid then (st, false)
  else
    (st.supported t.fromN).foldl
      (fun (p : Engine × Bool) pa =>
        let q := fireOnAssignment env t p.1 pa
        (q.1, p.2 || q.2))
      (st, false)

/-- One pass over the open list, which the source walks with a reverse
iterator. -/
def firePass (env : Env) (openList : List Trans) (st : Engine) :
    Engine × Bool :=
  openList.reverse.foldl
    (fun (p : Engine × Bool) t =>
      let q := processTransition env p.1 t
      (q.1, p.2 || q.2))
    (st, false)

/-- The while loop of iterateThroughFixedPoint (dtg_reachability.cpp
lines 672 to 1029): propagate reachable nodes, fire every transition,
and repeat while some transition fired.  Every continuing pass achieves
a transition not achieved before, so the open-list length plus one
passes suffice; the fuel makes that bound explicit. -/
def innerLoopGo (env : Env) (openList : List Trans) :
    Nat → Engine → Engine
  | 0, st => st
  | fuel + 1, st =>
    let st0 := { st with
      reachable := propagateReachableNodes env st.reachable }
    let p := firePass env openList st0
    if p.2 then innerLoopGo env openList fuel p.1 else p.1

/-- The seeding loop of iterateThroughFixedPoint (dtg_reachability.cpp
lines 648 to 669): support every node from the established facts and
record the first supporting tuple of every supported node.  A node with
no atoms would abort on the support-finder entry assertion; the empty
fallback models the unreached value. -/
def seedNodes (env : Env) (st : Engine) : Engine :=
  env.nodes.foldl
    (fun s n =>
      match (getSupportingFacts env.canUnifyFG (env.nodeAtoms n) [] 0
          s.established).getD [] with
      | [] => s
      | tup :: _ =>
        { s with
          supported := fun k =>
            if k = n then s.supported n ++ [tup] else s.supported k })
    st

/-- The open list built during seeding: the transitions of every node in
order. -/
def openListOf (env : Env) : List Trans :=
  env.nodes.foldl (fun acc n => acc ++ env.nodeTrans n) []

/-- DTGReachability::iterateThroughFixedPoint (dtg_reachability.cpp
lines 637 to 1056). -/
def iterateThroughFixedPoint (env : Env) (st : Engine) : Engine :=
  let st1 := seedNodes env st
  let ol := openListOf env
  innerLoopGo env ol (ol.length + 1) st1

/-- The iteration bound of the loop over the matching DTG nodes in the
external-dependency handling (dtg_reachability.cpp line 469): the
iterator runs from begin() while it differs from end() - 1, so with a
nonempty list the final element is never visited.  An empty list makes
the source bound precede begin(); the empty result models that
unreached case. -/
def matchingIter : List Nat → List Nat
  | [] => []
  | [_] => []
  | x :: y :: rest => x :: matchingIter (y :: rest)

/-- The mask of externally dependent term positions of a from-node atom
(dtg_reachability.cpp lines 427 to 450): a term is dependent exactly
when its domain is listed among the dependent term domains of the
transition. -/
def depMaskFor (depIds : List Nat) (a : GAtom) : List Bool :=
  a.terms.map fun d => depIds.contains d

/-- The bounded atom to reach for a dependent from-node fact
(dtg_reachability.cpp lines 524 to 554): dependent positions take the
domain of the matching-node atom, the rest take the domain of the
supporting fact. -/
def atomToReach (env : Env) (equivAtom : GAtom) (mask : List Bool)
    (suppFact : CFact) : CFact :=
  ⟨equivAtom.pred,
    equivAtom.terms.enum.map fun (je : Nat × Nat) =>
      if mask.getD je.1 false then env.dval je.2
      else suppFact.doms.getD je.1 []⟩

/-- The loop over the from-node facts for one supporting tuple and one
matching node (dtg_reachability.cpp lines 488 to 578): facts without
external dependencies are carried over, dependent facts are rebuilt and
must unify with some established fact; the first unreachable dependent
fact abandons the tuple. -/
def extDepCollect (env : Env) (est : List CFact) :
    List (Bool × GAtom × List Bool × CFact) → Option (List CFact)
  | [] => some []
  | (dep, ea, mask, sf) :: rest =>
    if dep then
      let atr := atomToReach env ea mask sf
      if est.any fun e => env.canUnifyCC e atr then
        (extDepCollect env est rest).map fun l => atr :: l
      else none
    else (extDepCollect env est rest).map fun l => sf :: l

/-- The external-dependency handling for one transition of one node
(dtg_reachability.cpp lines 393 to 606): visit every matching DTG node
except the last, skip the from node itself, and for every supporting
tuple of the from node try to reach the dependent facts; on success the
matching node is made reachable with the collected facts. -/
def extDepForTrans (env : Env) (st : Engine) (n : Nat) (t : Trans)
    (depIds : List Nat) : Engine :=
  let fromAtoms := env.nodeAtoms t.fromN
  let masks := fromAtoms.map (depMaskFor depIds)
  let withDep := fromAtoms.map fun a => a.terms.any fun d =>
    depIds.contains d
  let supFrom := st.supported t.fromN
  (matchingIter (env.matchingNodes n t.tid)).foldl
    (fun s en =>
      if en = t.fromN then s
      else
        supFrom.foldl
          (fun (s2 : Engine) tup =>
            let rows := withDep.zip
              ((env.nodeAtoms en).zip (masks.zip tup))
            match extDepCollect env s2.established
                (rows.map fun r => (r.1, r.2.1, r.2.2.1, r.2.2.2)) with
            | none => s2
            | some rf => makeReachable env s2 en rf)
          s)
    st

/-- The external-dependency phase of the outer loop
(dtg_reachability.cpp lines 373 to 607). -/
def handleExternalDependencies (env : Env) (st : Engine) : Engine :=
  env.nodes.foldl
    (fun s n =>
      (env.extDeps n).foldl
        (fun s2 td => extDepForTrans env s2 n td.1 td.2) s)
    st

/-- The merge test of the SAS equivalent-object groups
(dtg_reachability.cpp lines 49 to 116): some object of the first group
with a nonempty initial-node list matches, by type, some object of the
second group with a nonempty list such that a pair of their initial
nodes is mutually reachable. -/
def sasCanMerge (env : Env) (reach : Nat → List Nat)
    (g1 g2 : SASGroup) : Bool :=
  g1.initialMapping.any fun (e1 : Nat × List Nat) =>
    ¬ e1.2.isEmpty &&
      g2.initialMapping.any fun (e2 : Nat × List Nat) =>
        env.objType e1.1 == env.objType e2.1 && ¬ e2.2.isEmpty &&
          e1.2.any fun d1 =>
            e2.2.any fun d2 =>
              (reach d1).contains d2 && (reach d2).contains d1

/-- The map insertion performed on a successful SAS merge
(dtg_reachability.cpp line 108): entries of the second map whose key is
absent from the first are added; existing keys keep their value. -/
def sasMerge (g1 g2 : SASGroup) : SASGroup :=
  ⟨g1.initialMapping ++
    g2.initialMapping.filter fun e =>
      ¬ g1.initialMapping.any fun e1 => e1.1 == e.1⟩

/-- One candidate pair of the SAS update (dtg_reachability.cpp lines 204
to 227): skip pairs with a group already marked for removal, otherwise
attempt the merge and mark the second group on success. -/
def sasPairStep (env : Env) (reach : Nat → List Nat)
    (p : List SASGroup × List Bool) (ij : Nat × Nat) :
    List SASGroup × List Bool :=
  if p.2.getD ij.1 false ∨ p.2.getD ij.2 false then p
  else if sasCanMerge env reach (p.1.getD ij.1 default)
      (p.1.getD ij.2 default) then
    (p.1.set ij.1 (sasMerge (p.1.getD ij.1 default)
        (p.1.getD ij.2 default)),
      p.2.set ij.2 true)
  else p

/-- The ordered index pairs the SAS update visits: the outer iterator
stops one short of the end, the inner starts one past the outer. -/
def sasPairs (n : Nat) : List (Nat × Nat) :=
  (List.range (n - 1)).foldl
    (fun acc i =>
      acc ++ ((List.range (n - 1 - i)).map fun k => (i, i + 1 + k)))
    []

/-- The removal loop of the SAS update (dtg_reachability.cpp lines 230
to 236): the counter keeps advancing while erasure shifts the vector,
so the flag at a counter position is applied to the current list. -/
def sasEraseLoop (cur : List SASGroup) (flags : List Bool) (i : Nat) :
    List SASGroup :=
  if i < cur.length then
    if flags.getD i false then sasEraseLoop (cur.eraseIdx i) flags (i + 1)
    else sasEraseLoop cur flags (i + 1)
  else cur
termination_by cur.length - i
decreasing_by
  · simp only [List.length_eraseIdx, *, if_pos]
    omega
  · omega

/-- EquivalentObjectGroupManager::updateEquivalences of the SAS manager
(dtg_reachability.cpp lines 198 to 237). -/
def sasUpdateEquivalences (env : Env) (reach : Nat → List Nat)
    (gs : List SASGroup) : List SASGroup :=
  let p := (sasPairs gs.length).foldl (sasPairStep env reach)
    (gs, gs.map fun _ => false)
  sasEraseLoop p.1 p.2 0

/-- addInitialDTGNodeMapping (dtg_reachability.cpp lines 29 to 47) for
the group owning the object: with the key present, the node is appended
unless already recorded; with the key absent the source builds a fresh
vector that is never installed in the map, leaving the map unchanged. -/
def sasAddInit (env : Env) (gs : List SASGroup) (o node : Nat) :
    List SASGroup :=
  match env.objects.findIdx? (fun x => x == o) with
  | none => gs
  | some gi =>
    let g := gs.getD gi default
    gs.set gi
      ⟨g.initialMapping.map fun e =>
        if e.1 = o ∧ ¬ e.2.contains node then (e.1, e.2 ++ [node])
        else e⟩

/-- The SAS manager constructor (dtg_reachability.cpp lines 139 to 196):
one group per object, then for every node supported by the initial
facts, every invariable index of every tuple atom contributes its
domain objects to the initial-node mapping of their groups. -/
def sasInitGroups (env : Env) (initialFacts : List CFact) :
    List SASGroup :=
  let base := env.objects.map fun o => (⟨[(o, [])]⟩ : SASGroup)
  env.nodes.foldl
    (fun gs n =>
      ((getSupportingFacts env.canUnifyFG (env.nodeAtoms n) [] 0
          initialFacts).getD []).foldl
        (fun gs2 tup =>
          ((env.nodeAtoms n).zip tup).foldl
            (fun gs3 (at_ : GAtom × CFact) =>
              at_.1.props.foldl
                (fun gs4 idx =>
                  (at_.2.doms.getD idx []).foldl
                    (fun gs5 o => sasAddInit env gs5 o n) gs4)
                gs3)
            gs2)
        gs)
    base

/-- One iteration of the outer do-while body of
performReachabilityAnalsysis (dtg_reachability.cpp lines 362 to 608):
the inner fixed point, the SAS equivalence update and the
external-dependency handling. -/
def outerStep (env : Env) (st : Engine) : Engine :=
  let st1 := iterateThroughFixedPoint env st
  let st2 := { st1 with
    groups := sasUpdateEquivalences env st1.reachable st1.groups }
  handleExternalDependencies env st2

/-- The outer do-while loop (dtg_reachability.cpp lines 362 to 609): the
body runs, and the loop repeats exactly while the established count
changed.  The fuel is the modelling artifact for a loop whose
termination rests on the finiteness of the fact universe. -/
def analysisLoop (env : Env) : Nat → Engine → Engine
  | 0, st => st
  | fuel + 1, st =>
    let st2 := outerStep env st
    if st2.established.length = st.established.length then st2
    else analysisLoop env fuel st2

/-- The engine state entering the outer loop: established facts start as
a copy of the initial facts, nothing is achieved or supported, and the
SAS manager has been constructed. -/
def initialEngine (env : Env) (initialFacts : List CFact) : Engine :=
  { established := initialFacts, achieved := [],
    supported := fun _ => [], reachable := fun _ => [],
    groups := sasInitGroups env initialFacts }

/-- DTGReachability::performReachabilityAnalsysis (dtg_reachability.cpp
lines 346 to 634), with explicit fuel for the outer loop. -/
def performReachabilityAnalsysis (env : Env) (fuel : Nat)
    (initialFacts : List CFact) : Engine :=
  analysisLoop env fuel (initialEngine env initialFacts)

/-- A concrete two-group state for the historical-query witness: group
zero merged into group one at iteration zero; group one is a root with
snapshots of sizes one and two. -/
def exStC6 : EOGState :=
  { n := 2
  , eogs := fun g =>
      if g = 0 then ⟨false, some 1, [], some 0, [], [], []⟩
      else ⟨false, none, [], none, [⟨7, []⟩, ⟨8, []⟩], [], [1, 2]⟩
  , m := 0
  , facts := fun _ => default }

/-- A concrete state with two mergeable singleton roots, for the merge
witness. -/
def exStC3 : EOGState :=
  { n := 2
  , eogs := fun g =>
      if g = 0 then ⟨false, none, [true], none, [⟨5, []⟩], [], []⟩
      else ⟨false, none, [true], none, [⟨6, []⟩], [], []⟩
  , m := 0
  , facts := fun _ => default }

/-- A concrete state whose second group is already merged into the
first (non-root), for the snapshot counterexample. -/
def exStC7 : EOGState :=
  { n := 2
  , eogs := fun g =>
      if g = 0 then ⟨false, none, [true], none, [⟨5, []⟩], [], []⟩
      else ⟨false, some 0, [true], some 0, [⟨6, []⟩], [], []⟩
  , m := 0
  , facts := fun _ => default }

/-- The per-group snapshot invariant up to a bound: the
size_per_iteration_ list is sorted non-decreasingly and its last entry
is at most the current equivalent-object count. -/
def spiOkUpTo (st : EOGState) (n : Nat) : Prop :=
  ∀ g, g < n →
    List.Chain' (· ≤ ·) (getEog st g).sizePerIteration ∧
      ∀ x ∈ (getEog st g).sizePerIteration.getLast?,
        x ≤ (getEog st g).eqObjs.length

/-- A reachable fact is live when it has not been tombstoned. -/
def liveF (st : EOGState) (f : Nat) : Prop :=
  (getFact st f).replacedBy = none

/-- The number of non-root groups in the arena; every link chain from a
group reaches a root in at most this many steps. -/
def nonRootCount (st : EOGState) : Nat :=
  ((List.range st.n).filter fun g => ¬ isRoot st g).length

/-- The well-formedness invariant holding between manager updates, the
state the constructor and initialise establish: links stay inside the
arena and reach a root, reachable-fact lists stay inside the fact
arena, terms of facts stay inside the group arena, live facts have
root terms and are registered in the list of every term group, a live
fact in a root list mentions that group among its terms (or has no
terms, as with the zero-arity group), and every root list holding a
tombstoned fact is recorded in the affected list (empty between
updates, so root lists hold only live facts then). -/
structure PassInv (st : EOGState) (aff : List Nat) : Prop where
  linkBound : ∀ g, g < st.n → ∀ l, (getEog st g).link = some l → l < st.n
  rootReach : ∀ g, g < st.n →
      isRoot st (rootOf st (nonRootCount st) g) = true
  factBound : ∀ g, g < st.n → ∀ f ∈ (getEog st g).rfacts, f < st.m
  termBound : ∀ f, f < st.m → ∀ t ∈ (getFact st f).terms, t < st.n
  liveRoot : ∀ f, f < st.m → liveF st f →
      ∀ t ∈ (getFact st f).terms, isRoot st t = true
  registered : ∀ f, f < st.m → liveF st f →
      ∀ t ∈ (getFact st f).terms, f ∈ (getEog st t).rfacts
  ownedRoot : ∀ g, g < st.n → isRoot st g = true →
      ∀ f ∈ (getEog st g).rfacts, liveF st f →
        (getFact st f).terms = [] ∨ g ∈ (getFact st f).terms
  markedCovered : ∀ g, g < st.n → isRoot st g = true →
      ∀ f ∈ (getEog st g).rfacts, ¬ liveF st f → g ∈ aff

/-- The invariant threaded through the second loop of merge, relative
to the absorbing root a and the just-linked group b: pending is the
suffix of the b fact list still to precess.  Facts with the stale term
b are exactly the pending ones; registration in the list of a may be
deferred to the pending scan; pending live facts mention b (or already
a, once rewritten by an earlier duplicate occurrence). -/
structure LoopInv (a b : Nat) (st : EOGState) (pending aff : List Nat) :
    Prop where
  ha : a < st.n
  hb : b < st.n
  linkA : (getEog st a).link = none
  linkB : (getEog st b).link = some a
  factBound : ∀ g, g < st.n → ∀ f ∈ (getEog st g).rfacts, f < st.m
  termBound : ∀ f, f < st.m → ∀ t ∈ (getFact st f).terms, t < st.n
  pendBound : ∀ f ∈ pending, f < st.m
  liveRootB : ∀ f, f < st.m → liveF st f →
      ∀ t ∈ (getFact st f).terms,
        isRoot st t = true ∨ (t = b ∧ f ∈ pending)
  regA : ∀ f, f < st.m → liveF st f → ∀ t ∈ (getFact st f).terms,
      isRoot st t = true →
        (f ∈ (getEog st t).rfacts ∨ (t = a ∧ f ∈ pending))
  ownedRoot : ∀ g, g < st.n → isRoot st g = true →
      ∀ f ∈ (getEog st g).rfacts, liveF st f →
        (getFact st f).terms = [] ∨ g ∈ (getFact st f).terms
  markedCovered : ∀ g, g < st.n → isRoot st g = true →
      ∀ f ∈ (getEog st g).rfacts, ¬ liveF st f → g ∈ aff
  pendOwn : ∀ f ∈ pending, liveF st f →
      (getFact st f).terms = [] ∨ b ∈ (getFact st f).terms ∨
        a ∈ (getFact st f).terms

/-- A never-true oracle standing for isEquivalentTo and isIdenticalTo
in the C5 witness run. -/
def exC5f : EOGState → Nat → Nat → Bool := fun _ _ _ => false

/-- A one-group, one-fact arena satisfying the manager invariant: the
single group is a root holding the single live fact, whose only term is
that group. -/
def exStC5 : EOGState where
  n := 1
  m := 1
  eogs := fun _ =>
    { isGrounded := false, link := none, fingerPrint := [],
      mergedAt := none, eqObjs := [{ obj := 0, initialFacts := [] }],
      rfacts := [0], sizePerIteration := [] }
  facts := fun _ => { pred := 0, terms := [0], replacedBy := none }

/-!
Theorems.  Helper lemmas come first, then one theorem per claim with
its witness or counterexample.
-/

theorem getEog_setEog (st : EOGState) (a b : Nat) (e : EOG) :
    getEog (setEog st a e) b = if b = a then e else getEog st b := rfl

theorem getEog_setFact (st : EOGState) (i : Nat) (f : RFact) (g : Nat) :
    getEog (setFact st i f) g = getEog st g := rfl

theorem getFact_setEog (st : EOGState) (a : Nat) (e : EOG) (i : Nat) :
    getFact (setEog st a e) i = getFact st i := rfl

theorem rootOf_of_isRoot (st : EOGState) (fuel g : Nat)
    (h : isRoot st g = true) : rootOf st fuel g = g := by
  cases fuel with
  | zero => rfl
  | succ k =>
    simp only [isRoot, Option.isNone_iff_eq_none] at h
    simp [rootOf, h]

theorem getRoot_of_isRoot (st : EOGState) (g : Nat)
    (h : isRoot st g = true) : getRoot st g = g :=
  rootOf_of_isRoot st st.n g h

/-- C10: the support finder insists on entry that the atoms to achieve
outnumber the supporting facts accumulated so far; the call succeeds
exactly under that bound, and in particular an empty atoms_to_achieve
list aborts on the assertion instead of emitting the empty supporting
tuple. -/
theorem C10_getSupportingFacts_entry_assertion :
    (∀ (cu : CFact → GAtom → Bool) (atoms : List GAtom)
        (asg : AssignMap) (accLen : Nat) (facts : List CFact),
      (getSupportingFacts cu atoms asg accLen facts).isSome ↔
        accLen < atoms.length) ∧
    (∀ (cu : CFact → GAtom → Bool) (asg : AssignMap)
        (facts : List CFact),
      getSupportingFacts cu [] asg 0 facts = none) := by
  constructor
  · intro cu atoms asg accLen facts
    by_cases h : accLen < atoms.length <;> simp [getSupportingFacts, h]
  · intro cu asg facts
    simp [getSupportingFacts]

/-- C2: during the support search, a goal-term domain absent from the
assignment map is bound to the domain of the candidate fact; a present
one is replaced by the sorted intersection of the existing binding and
the candidate domain; an empty intersection only skips the candidate
fact, with the remaining candidates searched under the unchanged
caller bindings, and is never surfaced to the caller as an error. -/
theorem C2_support_finder_bindings :
    (∀ (asg : AssignMap) (d : Nat) (fd : List Nat)
        (rest : List (Nat × List Nat)),
      amLookup asg d = none →
        bindTerms asg ((d, fd) :: rest) =
          bindTerms (amInsert asg d fd) rest) ∧
    (∀ (asg : AssignMap) (d : Nat) (fd ex : List Nat)
        (rest : List (Nat × List Nat)),
      amLookup asg d = some ex →
        setIntersection (sortObjs fd) (sortObjs ex) = [] →
          bindTerms asg ((d, fd) :: rest) = none) ∧
    (∀ (asg : AssignMap) (d : Nat) (fd ex : List Nat)
        (rest : List (Nat × List Nat)),
      amLookup asg d = some ex →
        setIntersection (sortObjs fd) (sortObjs ex) ≠ [] →
          bindTerms asg ((d, fd) :: rest) =
            bindTerms
              (amInsert asg d (setIntersection (sortObjs fd) (sortObjs ex)))
              rest) ∧
    (∀ (cu : CFact → GAtom → Bool) (allAtoms : List GAtom)
        (allFacts : List CFact) (asg : AssignMap) (a : GAtom)
        (pending : List GAtom) (f : CFact) (fs : List CFact),
      cu f a = true → bindTerms asg (a.terms.zip f.doms) = none →
        gsfGo cu allAtoms allFacts asg (a :: pending) (f :: fs) =
          gsfGo cu allAtoms allFacts asg (a :: pending) fs) ∧
    (∀ (cu : CFact → GAtom → Bool) (atoms : List GAtom)
        (asg : AssignMap) (facts : List CFact),
      0 < atoms.length →
        (getSupportingFacts cu atoms asg 0 facts).isSome) := by
  refine ⟨?_, ?_, ?_, ?_, ?_⟩
  · intro asg d fd rest h
    simp [bindTerms, h]
  · intro asg d fd ex rest h he
    simp [bindTerms, h, he]
  · intro asg d fd ex rest h hne
    simp [bindTerms, h, List.isEmpty_iff, hne]
  · intro cu allAtoms allFacts asg a pending f fs hcu hbt
    simp [gsfGo, hcu, hbt]
  · intro cu atoms asg facts h
    simp [getSupportingFacts, h]

theorem C2_support_finder_bindings_witness :
    (amLookup [] 4 = none ∧
      bindTerms [] [(4, [1, 2])] = bindTerms (amInsert [] 4 [1, 2]) []) ∧
    (amLookup [(4, [2, 3])] 4 = some [2, 3] ∧
      setIntersection (sortObjs [1]) (sortObjs [2, 3]) = [] ∧
      bindTerms [(4, [2, 3])] [(4, [1])] = none) ∧
    (amLookup [(4, [2, 3])] 4 = some [2, 3] ∧
      setIntersection (sortObjs [3, 1]) (sortObjs [2, 3]) ≠ [] ∧
      bindTerms [(4, [2, 3])] [(4, [3, 1])] =
        bindTerms
          (amInsert [(4, [2, 3])] 4
            (setIntersection (sortObjs [3, 1]) (sortObjs [2, 3]))) []) ∧
    ((fun (f : CFact) (a : GAtom) => f.pred == a.pred)
        (⟨0, [[1]]⟩ : CFact) (⟨0, [4], []⟩ : GAtom) = true ∧
      bindTerms [(4, [2, 3])] ((⟨0, [4], []⟩ : GAtom).terms.zip
        (⟨0, [[1]]⟩ : CFact).doms) = none ∧
      gsfGo (fun f a => f.pred == a.pred) [⟨0, [4], []⟩] []
          [(4, [2, 3])] [⟨0, [4], []⟩] [⟨0, [[1]]⟩] =
        gsfGo (fun f a => f.pred == a.pred) [⟨0, [4], []⟩] []
          [(4, [2, 3])] [⟨0, [4], []⟩] []) ∧
    (0 < ([⟨0, [4], []⟩] : List GAtom).length ∧
      (getSupportingFacts (fun f a => f.pred == a.pred) [⟨0, [4], []⟩]
          [(4, [2, 3])] 0 [⟨0, [[1]]⟩]).isSome) := by
  refine ⟨⟨rfl, ?_⟩, ⟨rfl, by decide, ?_⟩, ⟨rfl, by decide, ?_⟩,
    ⟨rfl, by decide, ?_⟩, ⟨by decide, ?_⟩⟩
  · exact C2_support_finder_bindings.1 [] 4 [1, 2] [] rfl
  · exact C2_support_finder_bindings.2.1 [(4, [2, 3])] 4 [1] [2, 3] [] rfl
      (by decide)
  · exact C2_support_finder_bindings.2.2.1 [(4, [2, 3])] 4 [3, 1] [2, 3] []
      rfl (by decide)
  · exact C2_support_finder_bindings.2.2.2.1 (fun f a => f.pred == a.pred)
      [⟨0, [4], []⟩] [] [(4, [2, 3])] ⟨0, [4], []⟩ [] ⟨0, [[1]]⟩ []
      (by decide) (by decide)
  · exact C2_support_finder_bindings.2.2.2.2 (fun f a => f.pred == a.pred)
      [⟨0, [4], []⟩] [(4, [2, 3])] [⟨0, [[1]]⟩] (by decide)

theorem factPresent_iff (env : Env) (est : List CFact) (g : CFact) :
    factPresent env est g = true ↔
      ∃ b ∈ est, env.canUnifyCC b g = true ∧
        ∀ p ∈ b.doms.zip g.doms, env.termEquiv p.1 p.2 = true := by
  simp [factPresent, List.any_eq_true, Bool.and_eq_true, List.all_eq_true]

/-- C4: during transition firing, an achieved fact is appended to the
established list exactly when no established fact both unifies with it
under the bindings and matches it domain-by-domain; and the to-node
loop threads the established list through this gate for every achieved
fact. -/
theorem C4_established_append_gate :
    (∀ (env : Env) (est : List CFact) (g : CFact),
      addAchieved env est g = est ++ [g] ↔
        ¬ ∃ b ∈ est, env.canUnifyCC b g = true ∧
            ∀ p ∈ b.doms.zip g.doms, env.termEquiv p.1 p.2 = true) ∧
    (∀ (env : Env) (est : List CFact) (g : CFact),
      addAchieved env est g = est ↔
        ∃ b ∈ est, env.canUnifyCC b g = true ∧
          ∀ p ∈ b.doms.zip g.doms, env.termEquiv p.1 p.2 = true) ∧
    (∀ (env : Env) (t : Trans) (params : List (Option (List Nat)))
        (a : GAtom) (rest : List GAtom) (est : List CFact) (g : CFact),
      buildAchieved env t params a = some g →
        processToNodeAtoms env t params (a :: rest) est =
          ((processToNodeAtoms env t params rest
              (addAchieved env est g)).1,
            g :: (processToNodeAtoms env t params rest
              (addAchieved env est g)).2)) := by
  refine ⟨?_, ?_, ?_⟩
  · intro env est g
    rw [← factPresent_iff]
    by_cases hp : factPresent env est g = true
    · simp only [addAchieved, hp, if_pos]
      constructor
      · intro h
        have := congrArg List.length h
        simp at this
      · intro h
        exact absurd trivial h
    · simp [addAchieved, hp]
  · intro env est g
    rw [← factPresent_iff]
    by_cases hp : factPresent env est g = true
    · simp [addAchieved, hp]
    · simp only [addAchieved, hp, if_neg, Bool.false_eq_true,
        not_false_iff, if_false]
      constructor
      · intro h
        have := congrArg List.length h
        simp at this
      · intro h
        exact absurd h (by simp [hp])
  · intro env t params a rest est g h
    simp [processToNodeAtoms, h]

theorem C4_established_append_gate_witness :
    buildAchieved
        ⟨[], [], fun _ => [], fun _ => [], fun _ => [],
          fun _ _ => true, fun f g => f.pred == g.pred,
          fun x y => x == y, fun _ _ => true, fun _ => 0,
          fun _ => [], fun _ _ => []⟩
        ⟨0, 0, 0, [], []⟩ [] ⟨0, [], []⟩ = some ⟨0, []⟩ ∧
      processToNodeAtoms
        ⟨[], [], fun _ => [], fun _ => [], fun _ => [],
          fun _ _ => true, fun f g => f.pred == g.pred,
          fun x y => x == y, fun _ _ => true, fun _ => 0,
          fun _ => [], fun _ _ => []⟩
        ⟨0, 0, 0, [], []⟩ [] [⟨0, [], []⟩] [] =
        ((processToNodeAtoms
            ⟨[], [], fun _ => [], fun _ => [], fun _ => [],
              fun _ _ => true, fun f g => f.pred == g.pred,
              fun x y => x == y, fun _ _ => true, fun _ => 0,
              fun _ => [], fun _ _ => []⟩
            ⟨0, 0, 0, [], []⟩ [] []
            (addAchieved
              ⟨[], [], fun _ => [], fun _ => [], fun _ => [],
                fun _ _ => true, fun f g => f.pred == g.pred,
                fun x y => x == y, fun _ _ => true, fun _ => 0,
                fun _ => [], fun _ _ => []⟩
              [] ⟨0, []⟩)).1,
          ⟨0, []⟩ :: (processToNodeAtoms
            ⟨[], [], fun _ => [], fun _ => [], fun _ => [],
              fun _ _ => true, fun f g => f.pred == g.pred,
              fun x y => x == y, fun _ _ => true, fun _ => 0,
              fun _ => [], fun _ _ => []⟩
            ⟨0, 0, 0, [], []⟩ [] []
            (addAchieved
              ⟨[], [], fun _ => [], fun _ => [], fun _ => [],
                fun _ _ => true, fun f g => f.pred == g.pred,
                fun x y => x == y, fun _ _ => true, fun _ => 0,
                fun _ => [], fun _ _ => []⟩
              [] ⟨0, []⟩)).2) :=
  ⟨rfl,
    C4_established_append_gate.2.2
      ⟨[], [], fun _ => [], fun _ => [], fun _ => [],
        fun _ _ => true, fun f g => f.pred == g.pred,
        fun x y => x == y, fun _ _ => true, fun _ => 0,
        fun _ => [], fun _ _ => []⟩
      ⟨0, 0, 0, [], []⟩ [] ⟨0, [], []⟩ [] [] ⟨0, []⟩ rfl⟩

/-- C8: the loop over the DTG nodes matching the from-node pattern in
the external-dependency handling runs its iterator only up to one
before the end, so the final matching node returned by the graph query
is never considered. -/
theorem C8_extdep_matching_loop_skips_last :
    (∀ l : List Nat, matchingIter l = l.dropLast) ∧
    (∀ (l : List Nat) (h : l ≠ []), l.Nodup →
      l.getLast h ∉ matchingIter l) := by
  have key : ∀ l : List Nat, matchingIter l = l.dropLast := by
    intro l
    induction l with
    | nil => rfl
    | cons x xs ih =>
      cases xs with
      | nil => rfl
      | cons y ys => simp [matchingIter, ih]
  refine ⟨key, ?_⟩
  intro l h hn hmem
  rw [key] at hmem
  have hsplit := List.dropLast_append_getLast h
  rw [← hsplit] at hn
  rcases List.nodup_append.mp hn with ⟨_, _, hdisj⟩
  exact hdisj hmem (by simp)

theorem C8_extdep_matching_loop_skips_last_witness :
    ([1, 2, 3] : List Nat) ≠ [] ∧ ([1, 2, 3] : List Nat).Nodup ∧
      ([1, 2, 3] : List Nat).getLast (by decide) ∉
        matchingIter [1, 2, 3] :=
  ⟨by decide, by decide,
    C8_extdep_matching_loop_skips_last.2 [1, 2, 3] (by decide) (by decide)⟩

/-- C9: an equivalent object with no initial facts satisfies
isInitialStateReachable for every reachable-fact list, so such an
object never blocks the initial-state-reachability condition of
tryToMergeWith. -/
theorem C9_empty_initial_facts_never_blocks :
    (∀ (fE : EOGState → Nat → Nat → Bool) (st : EOGState) (eo : EqObj)
        (rfs : List Nat), eo.initialFacts = [] →
      isInitialStateReachable fE st eo rfs = true) ∧
    (∀ (fE : EOGState → Nat → Nat → Bool) (st : EOGState)
        (eos : List EqObj) (rfs : List Nat) (eo : EqObj),
      eo ∈ eos → eo.initialFacts = [] →
        anyObjectReachesInitial fE st eos rfs = true) := by
  constructor
  · intro fE st eo rfs h
    simp [isInitialStateReachable, h]
  · intro fE st eos rfs eo hmem h
    simp only [anyObjectReachesInitial, List.any_eq_true]
    exact ⟨eo, hmem, by simp [isInitialStateReachable, h]⟩

theorem C9_empty_initial_facts_never_blocks_witness :
    (EqObj.initialFacts ⟨3, []⟩ = []) ∧
      ((⟨3, []⟩ : EqObj) ∈ ([⟨3, []⟩] : List EqObj)) ∧
      isInitialStateReachable (fun _ _ _ => false)
        ⟨0, fun _ => default, 0, fun _ => default⟩ ⟨3, []⟩ [5] = true ∧
      anyObjectReachesInitial (fun _ _ _ => false)
        ⟨0, fun _ => default, 0, fun _ => default⟩ [⟨3, []⟩] [5] = true :=
  ⟨rfl, by decide,
    C9_empty_initial_facts_never_blocks.1 (fun _ _ _ => false)
      ⟨0, fun _ => default, 0, fun _ => default⟩ ⟨3, []⟩ [5] rfl,
    C9_empty_initial_facts_never_blocks.2 (fun _ _ _ => false)
      ⟨0, fun _ => default, 0, fun _ => default⟩ [⟨3, []⟩] [5] ⟨3, []⟩
      (by decide) rfl⟩

/-- C6: the historical membership query forwards to the link target
whenever merged_at_iteration_ is at most the queried iteration, and
otherwise answers true exactly when the object occurs among the first
size_per_iteration_ entries, at that iteration, of the ordered
equivalent-object list. -/
theorem C6_contains_historical_query :
    ∀ (st : EOGState) (fuel g obj iter : Nat),
      (∀ l : Nat, mergedLe (getEog st g).mergedAt iter = true →
        (getEog st g).link = some l →
          containsAt st (fuel + 1) g obj iter =
            containsAt st fuel l obj iter) ∧
      (mergedLe (getEog st g).mergedAt iter = false →
        iter < (getEog st g).sizePerIteration.length →
          (containsAt st (fuel + 1) g obj iter = true ↔
            ∃ eo ∈ (getEog st g).eqObjs.take
                ((getEog st g).sizePerIteration.getD iter 0),
              eo.obj = obj)) := by
  intro st fuel g obj iter
  constructor
  · intro l hm hl
    simp [containsAt, hm, hl]
  · intro hm _
    simp [containsAt, hm, List.any_eq_true]

theorem C6_contains_historical_query_witness :
    (mergedLe (getEog exStC6 0).mergedAt 1 = true ∧
      (getEog exStC6 0).link = some 1 ∧
      containsAt exStC6 2 0 8 1 = containsAt exStC6 1 1 8 1) ∧
    (mergedLe (getEog exStC6 1).mergedAt 1 = false ∧
      1 < (getEog exStC6 1).sizePerIteration.length ∧
      (containsAt exStC6 2 1 8 1 = true ↔
        ∃ eo ∈ (getEog exStC6 1).eqObjs.take
            ((getEog exStC6 1).sizePerIteration.getD 1 0),
          eo.obj = 8)) :=
  ⟨⟨by decide, rfl,
      (C6_contains_historical_query exStC6 1 0 8 1).1 1 (by decide) rfl⟩,
    ⟨by decide, by decide,
      (C6_contains_historical_query exStC6 1 1 8 1).2 (by decide)
        (by decide)⟩⟩

theorem anyObjectReachesInitial_iff (fE : EOGState → Nat → Nat → Bool)
    (st : EOGState) (eos : List EqObj) (rfs : List Nat) :
    anyObjectReachesInitial fE st eos rfs = true ↔
      ∃ eo ∈ eos, isInitialStateReachable fE st eo rfs = true := by
  simp [anyObjectReachesInitial, List.any_eq_true]

theorem mergeOtherLoop_getEog_ne (fI : EOGState → Nat → Nat → Bool)
    (a k : Nat) (hk : k ≠ a) :
    ∀ (pending : List Nat) (st : EOGState) (updated aff : List Nat),
      getEog (mergeOtherLoop fI a st pending updated aff).1 k =
        getEog st k := by
  intro pending
  induction pending with
  | nil => intro st updated aff; rfl
  | cons fid rest ih =>
    intro st updated aff
    simp only [mergeOtherLoop]
    split
    · exact ih st updated aff
    · split
      · split
        · rw [ih]; rfl
        · rw [ih]
          simp [getEog_setEog, getEog_setFact, updateTermsToRoot, hk]
      · rw [ih]
        simp [getEog_setEog, getEog_setFact, updateTermsToRoot, hk]

theorem mergeEOG_getEog_b (fI : EOGState → Nat → Nat → Bool)
    (st : EOGState) (a b : Nat) (aff : List Nat) (hab : b ≠ a) :
    getEog (mergeEOG fI st a b aff).1 b =
      { getEog st b with link := some a } := by
  simp only [mergeEOG]
  rw [mergeOtherLoop_getEog_ne fI a b hab]
  simp [getEog_setEog, hab]

/-- C3: for distinct root EOGs, tryToMergeWith merges the second into
the first, setting its link and stamping merged_at_iteration_, exactly
when neither group is grounded, the fingerprints are equal, some
equivalent object of the second group reaches its initial state among
the reachable facts of the first, and symmetrically. -/
theorem C3_tryToMergeWith_conditions
    (fE fI : EOGState → Nat → Nat → Bool) (st : EOGState) (a b : Nat)
    (affected : List Nat) (iter : Nat) (ha : isRoot st a = true)
    (hb : isRoot st b = true) (hab : a ≠ b) :
    ((tryToMergeWith fE fI st a b affected iter).2.2 = true ∧
        (getEog (tryToMergeWith fE fI st a b affected iter).1 b).link =
          some a ∧
        (getEog (tryToMergeWith fE fI st a b affected iter).1 b).mergedAt =
          some iter) ↔
      ((getEog st a).isGrounded = false ∧
        (getEog st b).isGrounded = false ∧
        (getEog st a).fingerPrint = (getEog st b).fingerPrint ∧
        (∃ eo ∈ (getEog st b).eqObjs,
          isInitialStateReachable fE st eo (getEog st a).rfacts = true) ∧
        (∃ eo ∈ (getEog st a).eqObjs,
          isInitialStateReachable fE st eo (getEog st b).rfacts = true)) := by
  have hra := getRoot_of_isRoot st a ha
  have hrb := getRoot_of_isRoot st b hb
  have hla : (getEog st a).link = none := by
    simpa [isRoot, Option.isNone_iff_eq_none] using ha
  have hlb : (getEog st b).link = none := by
    simpa [isRoot, Option.isNone_iff_eq_none] using hb
  by_cases hga : (getEog st a).isGrounded
  · simp [tryToMergeWith, hga]
  · by_cases hgb : (getEog st b).isGrounded
    · simp [tryToMergeWith, hgb]
    · have hbranch :
          tryToMergeWith fE fI st a b affected iter =
            tryToMergeCore fE fI st a b affected iter := by
        simp [tryToMergeWith, hga, hgb, hra, hrb, hab, hla, hlb]
      rw [hbranch]
      by_cases hfp : (getEog st a).fingerPrint = (getEog st b).fingerPrint
      · by_cases h1 : anyObjectReachesInitial fE st (getEog st b).eqObjs
            (getEog st a).rfacts
        · by_cases h2 : anyObjectReachesInitial fE st (getEog st a).eqObjs
              (getEog st b).rfacts
          · have hmerged :
                tryToMergeCore fE fI st a b affected iter =
                  (setEog (mergeEOG fI st a b affected).1 b
                    { getEog (mergeEOG fI st a b affected).1 b with
                        mergedAt := some iter },
                    (mergeEOG fI st a b affected).2, true) := by
              simp [tryToMergeCore, hfp, h1, h2]
            rw [hmerged]
            simp only [getEog_setEog, if_pos rfl]
            rw [mergeEOG_getEog_b fI st a b affected (Ne.symm hab)]
            simp [Bool.not_eq_true] at hga hgb
            simp [hga, hgb, hfp,
              ← anyObjectReachesInitial_iff fE st (getEog st b).eqObjs,
              ← anyObjectReachesInitial_iff fE st (getEog st a).eqObjs,
              h1, h2]
          · have : tryToMergeCore fE fI st a b affected iter =
                (st, affected, false) := by
              simp [tryToMergeCore, hfp, h1, h2]
            rw [this]
            simp [← anyObjectReachesInitial_iff fE st (getEog st a).eqObjs,
              h2]
        · have : tryToMergeCore fE fI st a b affected iter =
              (st, affected, false) := by
            simp [tryToMergeCore, hfp, h1]
          rw [this]
          simp [← anyObjectReachesInitial_iff fE st (getEog st b).eqObjs,
            h1]
      · have : tryToMergeCore fE fI st a b affected iter =
            (st, affected, false) := by
          simp [tryToMergeCore, hfp]
        rw [this]
        simp [hfp]

theorem C3_tryToMergeWith_conditions_witness :
    isRoot exStC3 0 = true ∧ isRoot exStC3 1 = true ∧ (0 : Nat) ≠ 1 ∧
      (((tryToMergeWith (fun _ _ _ => false) (fun _ _ _ => false) exStC3
            0 1 [] 2).2.2 = true ∧
          (getEog (tryToMergeWith (fun _ _ _ => false)
              (fun _ _ _ => false) exStC3 0 1 [] 2).1 1).link = some 0 ∧
          (getEog (tryToMergeWith (fun _ _ _ => false)
              (fun _ _ _ => false) exStC3 0 1 [] 2).1 1).mergedAt =
            some 2) ↔
        ((getEog exStC3 0).isGrounded = false ∧
          (getEog exStC3 1).isGrounded = false ∧
          (getEog exStC3 0).fingerPrint = (getEog exStC3 1).fingerPrint ∧
          (∃ eo ∈ (getEog exStC3 1).eqObjs,
            isInitialStateReachable (fun _ _ _ => false) exStC3 eo
              (getEog exStC3 0).rfacts = true) ∧
          (∃ eo ∈ (getEog exStC3 0).eqObjs,
            isInitialStateReachable (fun _ _ _ => false) exStC3 eo
              (getEog exStC3 1).rfacts = true))) :=
  ⟨by decide, by decide, by decide,
    C3_tryToMergeWith_conditions (fun _ _ _ => false) (fun _ _ _ => false)
      exStC3 0 1 [] 2 (by decide) (by decide) (by decide)⟩

/-- C7 counterexample: in the source the snapshot push_back sits after
the root-only merge block, not inside it, so a non-root EOG also
appends to size_per_iteration_ during updateEquivalences. -/
theorem C7_counterexample :
    isRoot exStC7 1 = false ∧
      (getEog exStC7 1).sizePerIteration = [] ∧
      (getEog (updateEquivalencesManager (fun _ _ _ => false)
          (fun _ _ _ => false) exStC7 3) 1).sizePerIteration = [1] :=
  ⟨by decide, by decide, by decide⟩

theorem mergeOtherLoop_spi_eqObjs (fI : EOGState → Nat → Nat → Bool)
    (a : Nat) :
    ∀ (pending : List Nat) (st : EOGState) (updated aff : List Nat)
      (k : Nat),
      (getEog (mergeOtherLoop fI a st pending updated aff).1
            k).sizePerIteration =
          (getEog st k).sizePerIteration ∧
        (getEog (mergeOtherLoop fI a st pending updated aff).1 k).eqObjs =
          (getEog st k).eqObjs := by
  intro pending
  induction pending with
  | nil => intro st updated aff k; exact ⟨rfl, rfl⟩
  | cons fid rest ih =>
    intro st updated aff k
    simp only [mergeOtherLoop]
    split
    · exact ih st updated aff k
    · split
      · split
        · exact (ih _ _ _ k).imp (fun h => h.trans rfl)
            (fun h => h.trans rfl)
        · refine ⟨((ih _ _ _ k).1).trans ?_, ((ih _ _ _ k).2).trans ?_⟩ <;>
            · simp only [getEog_setEog]
              split <;> (try subst_vars) <;> rfl
      · refine ⟨((ih _ _ _ k).1).trans ?_, ((ih _ _ _ k).2).trans ?_⟩ <;>
          · simp only [getEog_setEog]
            split <;> (try subst_vars) <;> rfl

theorem mergeEOG_eqObjs (fI : EOGState → Nat → Nat → Bool)
    (st : EOGState) (a b : Nat) (aff : List Nat) (k : Nat) :
    (getEog (mergeEOG fI st a b aff).1 k).eqObjs =
      if k = a then (getEog st a).eqObjs ++ (getEog st b).eqObjs
      else (getEog st k).eqObjs := by
  simp only [mergeEOG]
  rw [(mergeOtherLoop_spi_eqObjs fI a _ _ _ _ k).2]
  simp only [getEog_setEog]
  by_cases hka : k = a
  · subst hka
    by_cases hkb : k = b
    · subst hkb; simp
    · simp [hkb]
  · by_cases hkb : k = b
    · subst hkb; simp [hka]
    · simp [hka, hkb]

theorem mergeEOG_spi_eqObjs (fI : EOGState → Nat → Nat → Bool)
    (st : EOGState) (a b : Nat) (aff : List Nat) (k : Nat) :
    (getEog (mergeEOG fI st a b aff).1 k).sizePerIteration =
        (getEog st k).sizePerIteration ∧
      (getEog st k).eqObjs <+: (getEog (mergeEOG fI st a b aff).1 k).eqObjs
    := by
  constructor
  · simp only [mergeEOG]
    refine ((mergeOtherLoop_spi_eqObjs fI a _ _ _ _ k).1).trans ?_
    simp only [getEog_setEog]
    split <;> (try subst_vars) <;> split <;> (try subst_vars) <;>
      (try split) <;> (try subst_vars) <;> rfl
  · rw [mergeEOG_eqObjs fI st a b aff k]
    split
    · rename_i hk
      subst hk
      exact List.prefix_append _ _
    · exact List.prefix_rfl

theorem tryToMergeCore_spi_eqObjs (fE fI : EOGState → Nat → Nat → Bool)
    (st : EOGState) (a b : Nat) (aff : List Nat) (iter k : Nat) :
    (getEog (tryToMergeCore fE fI st a b aff iter).1
          k).sizePerIteration =
        (getEog st k).sizePerIteration ∧
      (getEog st k).eqObjs <+:
        (getEog (tryToMergeCore fE fI st a b aff iter).1 k).eqObjs := by
  simp only [tryToMergeCore]
  split
  · exact ⟨rfl, List.prefix_rfl⟩
  · split
    · exact ⟨rfl, List.prefix_rfl⟩
    · split
      · exact ⟨rfl, List.prefix_rfl⟩
      · refine ⟨?_, ?_⟩
        · rw [← (mergeEOG_spi_eqObjs fI st a b aff k).1]
          simp only [getEog_setEog]
          split <;> (try subst_vars) <;> rfl
        · refine ((mergeEOG_spi_eqObjs fI st a b aff k).2).trans ?_
          simp only [getEog_setEog]
          split <;> (try subst_vars) <;> exact List.prefix_rfl

theorem tryToMergeWith_spi_eqObjs (fE fI : EOGState → Nat → Nat → Bool)
    (st : EOGState) (a b : Nat) (aff : List Nat) (iter k : Nat) :
    (getEog (tryToMergeWith fE fI st a b aff iter).1
          k).sizePerIteration =
        (getEog st k).sizePerIteration ∧
      (getEog st k).eqObjs <+:
        (getEog (tryToMergeWith fE fI st a b aff iter).1 k).eqObjs := by
  simp only [tryToMergeWith]
  split
  · exact ⟨rfl, List.prefix_rfl⟩
  · split
    · exact ⟨rfl, List.prefix_rfl⟩
    · split
      · split
        · exact ⟨rfl, List.prefix_rfl⟩
        · exact tryToMergeCore_spi_eqObjs fE fI st _ _ aff iter k
      · exact tryToMergeCore_spi_eqObjs fE fI st a b aff iter k

theorem mergeFold_spi_eqObjs (fE fI : EOGState → Nat → Nat → Bool)
    (g : Nat) (iter : Nat) :
    ∀ (l : List Nat) (p : EOGState × List Nat) (k : Nat),
      (getEog (l.foldl
            (fun (p : EOGState × List Nat) e =>
              if isRoot p.1 e then
                ((tryToMergeWith fE fI p.1 g e p.2 iter).1,
                  (tryToMergeWith fE fI p.1 g e p.2 iter).2.1)
              else p)
            p).1 k).sizePerIteration =
          (getEog p.1 k).sizePerIteration ∧
        (getEog p.1 k).eqObjs <+:
          (getEog (l.foldl
            (fun (p : EOGState × List Nat) e =>
              if isRoot p.1 e then
                ((tryToMergeWith fE fI p.1 g e p.2 iter).1,
                  (tryToMergeWith fE fI p.1 g e p.2 iter).2.1)
              else p)
            p).1 k).eqObjs := by
  intro l
  induction l with
  | nil => intro p k; exact ⟨rfl, List.prefix_rfl⟩
  | cons e rest ih =>
    intro p k
    simp only [List.foldl_cons]
    by_cases hr : isRoot p.1 e
    · simp only [hr, if_pos]
      refine ⟨(ih ((tryToMergeWith fE fI p.1 g e p.2 iter).1,
            (tryToMergeWith fE fI p.1 g e p.2 iter).2.1) k).1.trans
          (tryToMergeWith_spi_eqObjs fE fI p.1 g e p.2 iter k).1,
        ((tryToMergeWith_spi_eqObjs fE fI p.1 g e p.2 iter k).2).trans
          (ih ((tryToMergeWith fE fI p.1 g e p.2 iter).1,
            (tryToMergeWith fE fI p.1 g e p.2 iter).2.1) k).2⟩
    · simp only [hr]
      simpa using ih p k

theorem deleteRemovedFacts_spi_eqObjs (st : EOGState) (g k : Nat) :
    (getEog (deleteRemovedFacts st g) k).sizePerIteration =
        (getEog st k).sizePerIteration ∧
      (getEog (deleteRemovedFacts st g) k).eqObjs = (getEog st k).eqObjs
    := by
  simp only [deleteRemovedFacts, getEog_setEog]
  split <;> (try subst_vars) <;> exact ⟨rfl, rfl⟩

theorem cleanupFold_spi_eqObjs (l : List Nat) :
    ∀ (st : EOGState) (k : Nat),
      (getEog (cleanupFold l st) k).sizePerIteration =
          (getEog st k).sizePerIteration ∧
        (getEog (cleanupFold l st) k).eqObjs = (getEog st k).eqObjs := by
  induction l with
  | nil => intro st k; exact ⟨rfl, rfl⟩
  | cons g rest ih =>
    intro st k
    simp only [cleanupFold, List.foldl_cons]
    by_cases hr : isRoot st g
    · simp only [hr, if_pos]
      exact ⟨((ih (deleteRemovedFacts st g) k).1).trans
          (deleteRemovedFacts_spi_eqObjs st g k).1,
        ((ih (deleteRemovedFacts st g) k).2).trans
          (deleteRemovedFacts_spi_eqObjs st g k).2⟩
    · simp only [hr]
      simpa [cleanupFold] using ih st k

theorem updateEquivalencesEOG_spec (fE fI : EOGState → Nat → Nat → Bool)
    (st : EOGState) (g : Nat) (allIds aff : List Nat) (iter : Nat) :
    (∀ k, k ≠ g →
      (getEog (updateEquivalencesEOG fE fI st g allIds aff iter).1
          k).sizePerIteration = (getEog st k).sizePerIteration) ∧
    ((getEog (updateEquivalencesEOG fE fI st g allIds aff iter).1
        g).sizePerIteration =
      (getEog st g).sizePerIteration ++
        [(getEog (updateEquivalencesEOG fE fI st g allIds aff iter).1
            g).eqObjs.length]) ∧
    (∀ k, (getEog st k).eqObjs <+:
      (getEog (updateEquivalencesEOG fE fI st g allIds aff iter).1
          k).eqObjs) := by
  have hfold : ∀ k,
      (getEog (if isRoot st g then
          allIds.foldl
            (fun (p : EOGState × List Nat) e =>
              if isRoot p.1 e then
                ((tryToMergeWith fE fI p.1 g e p.2 iter).1,
                  (tryToMergeWith fE fI p.1 g e p.2 iter).2.1)
              else p)
            (st, aff)
        else (st, aff)).1 k).sizePerIteration =
          (getEog st k).sizePerIteration ∧
        (getEog st k).eqObjs <+:
          (getEog (if isRoot st g then
              allIds.foldl
                (fun (p : EOGState × List Nat) e =>
                  if isRoot p.1 e then
                    ((tryToMergeWith fE fI p.1 g e p.2 iter).1,
                      (tryToMergeWith fE fI p.1 g e p.2 iter).2.1)
                  else p)
                (st, aff)
            else (st, aff)).1 k).eqObjs := by
    intro k
    by_cases hr : isRoot st g
    · simp only [hr, if_pos]
      exact mergeFold_spi_eqObjs fE fI g iter allIds (st, aff) k
    · simp only [hr]
      simp
  refine ⟨?_, ?_, ?_⟩
  · intro k hk
    simp only [updateEquivalencesEOG, getEog_setEog, hk, if_neg]
    exact (hfold k).1
  · simp only [updateEquivalencesEOG, getEog_setEog, if_pos]
    exact congrArg (· ++ _) (hfold g).1
  · intro k
    simp only [updateEquivalencesEOG, getEog_setEog]
    split
    · subst_vars
      exact (hfold _).2
    · exact (hfold k).2

theorem managerFold_post (fE fI : EOGState → Nat → Nat → Bool)
    (allIds : List Nat) (iter : Nat) :
    ∀ (l : List Nat) (cur : EOGState) (aff : List Nat) (k : Nat),
      ((getEog cur k).eqObjs <+:
        (getEog (managerFold fE fI allIds iter l (cur, aff)).1 k).eqObjs) ∧
      (k ∉ l →
        (getEog (managerFold fE fI allIds iter l (cur, aff)).1
            k).sizePerIteration = (getEog cur k).sizePerIteration) ∧
      (l.Nodup → k ∈ l → ∃ v,
        (getEog (managerFold fE fI allIds iter l (cur, aff)).1
            k).sizePerIteration =
          (getEog cur k).sizePerIteration ++ [v] ∧
        (getEog cur k).eqObjs.length ≤ v ∧
        v ≤ (getEog (managerFold fE fI allIds iter l
            (cur, aff)).1 k).eqObjs.length) := by
  intro l
  induction l with
  | nil =>
    intro cur aff k
    refine ⟨List.prefix_rfl, fun _ => rfl, fun _ hk => absurd hk ?_⟩
    simp
  | cons g rest ih =>
    intro cur aff k
    have hstep := updateEquivalencesEOG_spec fE fI cur g allIds aff iter
    have hcons : managerFold fE fI allIds iter (g :: rest) (cur, aff) =
        managerFold fE fI allIds iter rest
          ((updateEquivalencesEOG fE fI cur g allIds aff iter).1,
            (updateEquivalencesEOG fE fI cur g allIds aff iter).2) := by
      simp [managerFold]
    rw [hcons]
    have hihk := ih (updateEquivalencesEOG fE fI cur g allIds aff iter).1
      (updateEquivalencesEOG fE fI cur g allIds aff iter).2 k
    refine ⟨(hstep.2.2 k).trans hihk.1, ?_, ?_⟩
    · intro hk
      have hkg : k ≠ g := by
        intro he
        exact hk (by simp [he])
      have hkrest : k ∉ rest := fun hm => hk (List.mem_cons_of_mem g hm)
      rw [hihk.2.1 hkrest]
      exact hstep.1 k hkg
    · intro hnd hk
      have hgrest : g ∉ rest := (List.nodup_cons.mp hnd).1
      have hrestnd : rest.Nodup := (List.nodup_cons.mp hnd).2
      rcases List.mem_cons.mp hk with hkg | hkrest
      · subst hkg
        refine ⟨(getEog (updateEquivalencesEOG fE fI cur k allIds aff
            iter).1 k).eqObjs.length, ?_, ?_, ?_⟩
        · rw [hihk.2.1 hgrest]
          exact hstep.2.1
        · exact List.IsPrefix.length_le (hstep.2.2 k)
        · exact List.IsPrefix.length_le hihk.1
      · have hkg : k ≠ g := fun he => hgrest (he ▸ hkrest)
        rcases hihk.2.2 hrestnd hkrest with ⟨v, hv1, hv2, hv3⟩
        refine ⟨v, ?_, ?_, hv3⟩
        · rw [hv1, hstep.1 k hkg]
        · exact le_trans (List.IsPrefix.length_le (hstep.2.2 k)) hv2

/-- C7 amended: in each manager update call every EOG, root and
non-root alike, appends exactly one entry to size_per_iteration_ (the
equivalent-object count it sees when processed), and the snapshot
sequence of every EOG remains non-decreasing, its last entry bounded by
the equivalent-object count. -/
theorem C7_amended_snapshots (fE fI : EOGState → Nat → Nat → Bool)
    (st : EOGState) (iter : Nat) (h : spiOkUpTo st st.n) :
    (∀ g, g < st.n → ∃ v,
      (getEog (updateEquivalencesManager fE fI st iter)
          g).sizePerIteration =
        (getEog st g).sizePerIteration ++ [v]) ∧
    spiOkUpTo (updateEquivalencesManager fE fI st iter) st.n := by
  have hm : updateEquivalencesManager fE fI st iter =
      cleanupFold
        (managerFold fE fI (List.range st.n) iter (List.range st.n)
          (st, [])).2
        (managerFold fE fI (List.range st.n) iter (List.range st.n)
          (st, [])).1 := rfl
  have key : ∀ g, g < st.n → ∃ v,
      (getEog (updateEquivalencesManager fE fI st iter)
          g).sizePerIteration =
        (getEog st g).sizePerIteration ++ [v] ∧
      (∀ x ∈ (getEog st g).sizePerIteration.getLast?, x ≤ v) ∧
      v ≤ (getEog (updateEquivalencesManager fE fI st iter)
          g).eqObjs.length := by
    intro g hg
    have hpost := managerFold_post fE fI (List.range st.n) iter
      (List.range st.n) st [] g
    have hg' : g ∈ List.range st.n := List.mem_range.mpr hg
    rcases hpost.2.2 (List.nodup_range _) hg' with ⟨v, hv1, hv2, hv3⟩
    refine ⟨v, ?_, ?_, ?_⟩
    · rw [hm, (cleanupFold_spi_eqObjs _ _ g).1, hv1]
    · intro x hx
      exact le_trans ((h g hg).2 x hx) hv2
    · rw [hm, (cleanupFold_spi_eqObjs _ _ g).2]
      exact hv3
  constructor
  · intro g hg
    rcases key g hg with ⟨v, hv, _, _⟩
    exact ⟨v, hv⟩
  · intro g hg
    rcases key g hg with ⟨v, hv, hlast, hvlen⟩
    constructor
    · rw [hv]
      refine List.chain'_append.mpr ⟨(h g hg).1, List.chain'_singleton v,
        ?_⟩
      intro x hx y hy
      simp only [List.head?_cons, Option.mem_def, Option.some.injEq] at hy
      exact hy ▸ hlast x hx
    · intro x hx
      rw [hv, List.getLast?_concat] at hx
      simp only [Option.mem_def, Option.some.injEq] at hx
      exact hx ▸ hvlen

theorem C7_amended_snapshots_witness :
    spiOkUpTo exStC7 exStC7.n ∧
      ((∀ g, g < exStC7.n → ∃ v,
        (getEog (updateEquivalencesManager (fun _ _ _ => false)
            (fun _ _ _ => false) exStC7 3) g).sizePerIteration =
          (getEog exStC7 g).sizePerIteration ++ [v]) ∧
      spiOkUpTo (updateEquivalencesManager (fun _ _ _ => false)
          (fun _ _ _ => false) exStC7 3) exStC7.n) := by
  have hok : spiOkUpTo exStC7 exStC7.n := by
    intro g hg
    have hspi : (getEog exStC7 g).sizePerIteration = [] := by
      by_cases h0 : g = 0 <;> simp [exStC7, getEog, h0]
    rw [hspi]
    exact ⟨List.chain'_nil, by simp⟩
  exact ⟨hok,
    C7_amended_snapshots (fun _ _ _ => false) (fun _ _ _ => false) exStC7 3
      hok⟩

theorem foldl_grows {α β : Type _} (proj : β → List CFact)
    (f : β → α → β) (h : ∀ s x, proj s <+: proj (f s x)) :
    ∀ (l : List α) (s : β), proj s <+: proj (l.foldl f s) := by
  intro l
  induction l with
  | nil => intro s; exact List.prefix_rfl
  | cons x rest ih => intro s; exact (h s x).trans (ih (f s x))

theorem foldl_proj_eq {α β γ : Type _} (proj : β → γ) (f : β → α → β)
    (h : ∀ s x, proj (f s x) = proj s) :
    ∀ (l : List α) (s : β), proj (l.foldl f s) = proj s := by
  intro l
  induction l with
  | nil => intro s; rfl
  | cons x rest ih => intro s; exact (ih (f s x)).trans (h s x)

theorem established_makeReachable (env : Env) (st : Engine) (n : Nat)
    (tuple : List CFact) :
    (makeReachable env st n tuple).established = st.established := by
  unfold makeReachable
  dsimp only
  split <;> rfl

theorem addAchieved_grows (env : Env) (est : List CFact) (g : CFact) :
    est <+: addAchieved env est g := by
  unfold addAchieved
  split
  · exact List.prefix_rfl
  · exact List.prefix_append est [g]

theorem processToNodeAtoms_grows (env : Env) (t : Trans)
    (params : List (Option (List Nat))) :
    ∀ (atoms : List GAtom) (est : List CFact),
      est <+: (processToNodeAtoms env t params atoms est).1 := by
  intro atoms
  induction atoms with
  | nil => intro est; exact List.prefix_rfl
  | cons a rest ih =>
    intro est
    simp only [processToNodeAtoms]
    split
    · exact List.prefix_rfl
    · exact (addAchieved_grows env est _).trans (ih _)

theorem fireOnAssignment_grows (env : Env) (t : Trans) (st : Engine)
    (pa : List CFact) :
    st.established <+: (fireOnAssignment env t st pa).1.established := by
  unfold fireOnAssignment
  dsimp only
  split
  · exact List.prefix_rfl
  · split
    · rw [established_makeReachable]
      exact processToNodeAtoms_grows env t _ _ _
    · exact processToNodeAtoms_grows env t _ _ _

theorem processTransition_grows (env : Env) (st : Engine) (t : Trans) :
    st.established <+: (processTransition env st t).1.established := by
  unfold processTransition
  split
  · exact List.prefix_rfl
  · exact foldl_grows (fun (p : Engine × Bool) => p.1.established)
      (fun (p : Engine × Bool) pa =>
        ((fireOnAssignment env t p.1 pa).1,
          p.2 || (fireOnAssignment env t p.1 pa).2))
      (fun s x => fireOnAssignment_grows env t s.1 x) _ (st, false)

theorem firePass_grows (env : Env) (ol : List Trans) (st : Engine) :
    st.established <+: (firePass env ol st).1.established := by
  unfold firePass
  exact foldl_grows (fun (p : Engine × Bool) => p.1.established)
    (fun (p : Engine × Bool) t =>
      ((processTransition env p.1 t).1, p.2 || (processTransition env p.1 t).2))
    (fun s x => processTransition_grows env s.1 x) _ (st, false)

theorem innerLoopGo_grows (env : Env) (ol : List Trans) :
    ∀ (fuel : Nat) (st : Engine),
      st.established <+: (innerLoopGo env ol fuel st).established := by
  intro fuel
  induction fuel with
  | zero => intro st; exact List.prefix_rfl
  | succ n ih =>
    intro st
    simp only [innerLoopGo]
    split
    · exact (firePass_grows env ol
        { st with reachable := propagateReachableNodes env st.reachable }).trans
        (ih (firePass env ol
          { st with
              reachable := propagateReachableNodes env st.reachable }).1)
    · exact firePass_grows env ol
        { st with reachable := propagateReachableNodes env st.reachable }

theorem seedNodes_established (env : Env) (st : Engine) :
    (seedNodes env st).established = st.established := by
  unfold seedNodes
  apply foldl_proj_eq Engine.established
  intro s n
  split <;> rfl

theorem iterate_grows (env : Env) (st : Engine) :
    st.established <+: (iterateThroughFixedPoint env st).established := by
  unfold iterateThroughFixedPoint
  have h := innerLoopGo_grows env (openListOf env)
    ((openListOf env).length + 1) (seedNodes env st)
  rw [seedNodes_established env st] at h
  exact h

theorem extDepForTrans_established (env : Env) (st : Engine) (n : Nat)
    (t : Trans) (depIds : List Nat) :
    (extDepForTrans env st n t depIds).established = st.established := by
  unfold extDepForTrans
  apply foldl_proj_eq Engine.established
  intro s en
  split
  · rfl
  · apply foldl_proj_eq Engine.established
    intro s2 tup
    dsimp only
    split
    · rfl
    · rw [established_makeReachable]

theorem extDep_established (env : Env) (st : Engine) :
    (handleExternalDependencies env st).established = st.established := by
  unfold handleExternalDependencies
  apply foldl_proj_eq Engine.established
  intro s n
  apply foldl_proj_eq Engine.established
  intro s2 td
  exact extDepForTrans_established env s2 n td.1 td.2

theorem outerStep_grows (env : Env) (st : Engine) :
    st.established <+: (outerStep env st).established := by
  unfold outerStep
  rw [extDep_established]
  exact iterate_grows env st

theorem analysisLoop_grows (env : Env) :
    ∀ (fuel : Nat) (st : Engine),
      st.established <+: (analysisLoop env fuel st).established := by
  intro fuel
  induction fuel with
  | zero => intro st; exact List.prefix_rfl
  | succ n ih =>
    intro st
    simp only [analysisLoop]
    split
    · exact outerStep_grows env st
    · exact (outerStep_grows env st).trans (ih _)

/-- C1: throughout performReachabilityAnalsysis the established-fact
list only ever grows by appending (each phase of the outer body leaves
the previous list as a prefix), and the outer loop unfolds exactly as
the do-while of the source: after a body run it stops when the
established count did not change and repeats otherwise. -/
theorem C1_monotone_outer_fixed_point :
    (∀ (env : Env) (st : Engine),
      st.established <+: (outerStep env st).established) ∧
    (∀ (env : Env) (fuel : Nat) (st : Engine),
      analysisLoop env (fuel + 1) st =
        if (outerStep env st).established.length = st.established.length
        then outerStep env st
        else analysisLoop env fuel (outerStep env st)) ∧
    (∀ (env : Env) (fuel : Nat) (st : Engine),
      st.established <+: (analysisLoop env fuel st).established) ∧
    (∀ (env : Env) (fuel : Nat) (initialFacts : List CFact),
      initialFacts <+:
        (performReachabilityAnalsysis env fuel initialFacts).established)
    := by
  refine ⟨fun env st => outerStep_grows env st, ?_, ?_, ?_⟩
  · intro env fuel st
    rfl
  · intro env fuel st
    exact analysisLoop_grows env fuel st
  · intro env fuel initialFacts
    exact analysisLoop_grows env fuel (initialEngine env initialFacts)

theorem getFact_setFact (st : EOGState) (i : Nat) (f : RFact) (j : Nat) :
    getFact (setFact st i f) j = if j = i then f else getFact st j := rfl

theorem getFact_setEog_eq (st : EOGState) (a : Nat) (e : EOG) (i : Nat) :
    getFact (setEog st a e) i = getFact st i := rfl

theorem map_eq_self_mem {l : List Nat} {f : Nat → Nat}
    (h : l.map f = l) : ∀ x ∈ l, f x = x := by
  induction l with
  | nil => intro x hx; cases hx
  | cons y ys ih =>
    simp only [List.map_cons, List.cons.injEq] at h
    intro x hx
    rcases List.mem_cons.mp hx with rfl | hx
    · exact h.1
    · exact ih h.2 x hx

theorem rootOf_succ_none (st : EOGState) (k g : Nat)
    (h : (getEog st g).link = none) : rootOf st (k + 1) g = g := by
  simp [rootOf, h]

theorem rootOf_succ_some (st : EOGState) (k g l : Nat)
    (h : (getEog st g).link = some l) :
    rootOf st (k + 1) g = rootOf st k l := by
  simp [rootOf, h]

theorem rootOf_add (st : EOGState) :
    ∀ (k j g : Nat), rootOf st (k + j) g = rootOf st j (rootOf st k g) := by
  intro k
  induction k with
  | zero => intro j g; rw [Nat.zero_add]; rfl
  | succ i ih =>
    intro j g
    cases hl : (getEog st g).link with
    | none =>
      rw [rootOf_succ_none st i g hl]
      have : i + 1 + j = (i + j) + 1 := by omega
      rw [this, rootOf_succ_none st (i + j) g hl]
      cases j with
      | zero => rfl
      | succ j2 => rw [rootOf_succ_none st j2 g hl]
    | some l =>
      rw [rootOf_succ_some st i g l hl]
      have : i + 1 + j = (i + j) + 1 := by omega
      rw [this, rootOf_succ_some st (i + j) g l hl]
      exact ih j l

theorem rootOf_stable (st : EOGState) (k g : Nat)
    (h : isRoot st (rootOf st k g) = true) :
    ∀ j, k ≤ j → rootOf st j g = rootOf st k g := by
  intro j hkj
  have hj : j = k + (j - k) := by omega
  rw [hj, rootOf_add st k (j - k) g,
    rootOf_of_isRoot st (j - k) (rootOf st k g) h]

theorem nonRootCount_le (st : EOGState) : nonRootCount st ≤ st.n := by
  have := List.length_filter_le (fun g => !(isRoot st g)) (List.range st.n)
  simpa [nonRootCount] using this

theorem getRoot_isRoot_of_reach (st : EOGState) (g : Nat)
    (h : isRoot st (rootOf st (nonRootCount st) g) = true) :
    isRoot st (getRoot st g) = true := by
  have := rootOf_stable st (nonRootCount st) g h st.n (nonRootCount_le st)
  rw [getRoot, this]
  exact h

theorem rootOf_lt (st : EOGState)
    (hb : ∀ g, g < st.n → ∀ l, (getEog st g).link = some l → l < st.n) :
    ∀ (k g : Nat), g < st.n → rootOf st k g < st.n := by
  intro k
  induction k with
  | zero => intro g hg; exact hg
  | succ i ih =>
    intro g hg
    cases hl : (getEog st g).link with
    | none => rw [rootOf_succ_none st i g hl]; exact hg
    | some l =>
      rw [rootOf_succ_some st i g l hl]
      exact ih l (hb g hg l hl)

theorem getRoot_lt (st : EOGState)
    (hb : ∀ g, g < st.n → ∀ l, (getEog st g).link = some l → l < st.n)
    (g : Nat) (hg : g < st.n) : getRoot st g < st.n :=
  rootOf_lt st hb st.n g hg

theorem getRoot_of_link_to_root (st : EOGState) (a b : Nat)
    (hn : 0 < st.n) (hlb : (getEog st b).link = some a)
    (hla : (getEog st a).link = none) : getRoot st b = a := by
  unfold getRoot
  cases hn2 : st.n with
  | zero => omega
  | succ k =>
    rw [rootOf_succ_some st k b a hlb]
    exact rootOf_of_isRoot st k a
      (by simp [isRoot, hla])

theorem mergeOtherLoop_link (fI : EOGState → Nat → Nat → Bool) (a : Nat) :
    ∀ (pending : List Nat) (st : EOGState) (updated aff : List Nat)
      (g : Nat),
      (getEog (mergeOtherLoop fI a st pending updated aff).1 g).link =
        (getEog st g).link := by
  intro pending
  induction pending with
  | nil => intro st updated aff g; rfl
  | cons fid rest ih =>
    intro st updated aff g
    simp only [mergeOtherLoop]
    split
    · exact ih st updated aff g
    · split
      · split
        · exact (ih _ _ _ g).trans rfl
        · refine (ih _ _ _ g).trans ?_
          simp only [getEog_setEog]
          split <;> (try subst_vars) <;> rfl
      · refine (ih _ _ _ g).trans ?_
        simp only [getEog_setEog]
        split <;> (try subst_vars) <;> rfl

theorem mergeOtherLoop_nm (fI : EOGState → Nat → Nat → Bool) (a : Nat) :
    ∀ (pending : List Nat) (st : EOGState) (updated aff : List Nat),
      (mergeOtherLoop fI a st pending updated aff).1.n = st.n ∧
        (mergeOtherLoop fI a st pending updated aff).1.m = st.m := by
  intro pending
  induction pending with
  | nil => intro st updated aff; exact ⟨rfl, rfl⟩
  | cons fid rest ih =>
    intro st updated aff
    simp only [mergeOtherLoop]
    split
    · exact ih st updated aff
    · split
      · split
        · exact ih _ _ _
        · exact ih _ _ _
      · exact ih _ _ _

theorem deleteRemovedFacts_link (st : EOGState) (g k : Nat) :
    (getEog (deleteRemovedFacts st g) k).link = (getEog st k).link := by
  simp only [deleteRemovedFacts, getEog_setEog]
  split <;> (try subst_vars) <;> rfl

theorem deleteRemovedFacts_facts (st : EOGState) (g i : Nat) :
    getFact (deleteRemovedFacts st g) i = getFact st i := rfl

theorem cleanupFold_link (l : List Nat) :
    ∀ (st : EOGState) (k : Nat),
      (getEog (cleanupFold l st) k).link = (getEog st k).link := by
  induction l with
  | nil => intro st k; rfl
  | cons g rest ih =>
    intro st k
    simp only [cleanupFold, List.foldl_cons]
    by_cases hr : isRoot st g
    · simp only [hr, if_pos]
      exact ((ih (deleteRemovedFacts st g) k)).trans
        (deleteRemovedFacts_link st g k)
    · simp only [hr]
      simpa [cleanupFold] using ih st k

theorem cleanupFold_facts (l : List Nat) :
    ∀ (st : EOGState) (i : Nat),
      getFact (cleanupFold l st) i = getFact st i := by
  induction l with
  | nil => intro st i; rfl
  | cons g rest ih =>
    intro st i
    simp only [cleanupFold, List.foldl_cons]
    by_cases hr : isRoot st g
    · simp only [hr, if_pos]
      exact (ih (deleteRemovedFacts st g) i).trans rfl
    · simp only [hr]
      simpa [cleanupFold] using ih st i

theorem cleanupFold_nm (l : List Nat) :
    ∀ st : EOGState, (cleanupFold l st).n = st.n ∧
      (cleanupFold l st).m = st.m := by
  induction l with
  | nil => intro st; exact ⟨rfl, rfl⟩
  | cons g rest ih =>
    intro st
    simp only [cleanupFold, List.foldl_cons]
    by_cases hr : isRoot st g
    · simp only [hr, if_pos]
      exact ih (deleteRemovedFacts st g)
    · simp only [hr]
      simpa [cleanupFold] using ih st

theorem cleanupFold_rfacts_subset (l : List Nat) :
    ∀ (st : EOGState) (g f : Nat),
      f ∈ (getEog (cleanupFold l st) g).rfacts →
        f ∈ (getEog st g).rfacts := by
  induction l with
  | nil => intro st g f h; exact h
  | cons x rest ih =>
    intro st g f h
    simp only [cleanupFold, List.foldl_cons] at h
    by_cases hr : isRoot st x
    · simp only [hr, if_pos] at h
      have h2 := ih (deleteRemovedFacts st x) g f h
      simp only [deleteRemovedFacts, getEog_setEog] at h2
      by_cases hgx : g = x
      · subst hgx
        simp only [if_pos rfl] at h2
        exact List.mem_of_mem_filter h2
      · simpa [hgx] using h2
    · simp only [hr] at h
      exact ih st g f (by simpa [cleanupFold] using h)

theorem cleanupFold_no_marked (l : List Nat) :
    ∀ (st : EOGState) (g : Nat), g ∈ l → isRoot st g = true →
      ∀ f ∈ (getEog (cleanupFold l st) g).rfacts, liveF st f := by
  induction l with
  | nil => intro st g hg; cases hg
  | cons x rest ih =>
    intro st g hg hr f hf
    rcases List.mem_cons.mp hg with rfl | hg2
    · simp only [cleanupFold, List.foldl_cons, hr, if_pos] at hf
      have h2 := cleanupFold_rfacts_subset rest _ g f hf
      simp only [deleteRemovedFacts, getEog_setEog, if_pos rfl] at h2
      have := List.of_mem_filter h2
      simpa [liveF, isMarkedForRemoval, Option.isSome_iff_ne_none]
        using this
    · simp only [cleanupFold, List.foldl_cons] at hf
      by_cases hrx : isRoot st x
      · simp only [hrx, if_pos] at hf
        have hr2 : isRoot (deleteRemovedFacts st x) g = true := by
          simpa [isRoot, deleteRemovedFacts_link] using hr
        have := ih (deleteRemovedFacts st x) g hg2 hr2 f hf
        simpa [liveF, deleteRemovedFacts_facts] using this
      · simp only [hrx] at hf
        exact ih st g hg2 hr f (by simpa [cleanupFold] using hf)

theorem collectAffectedAll_mem_iff (terms : List Nat) :
    ∀ (aff : List Nat) (x : Nat),
      x ∈ collectAffectedAll terms aff ↔ x ∈ aff ∨ x ∈ terms := by
  induction terms with
  | nil => intro aff x; simp [collectAffectedAll]
  | cons t rest ih =>
    intro aff x
    have hstep : collectAffectedAll (t :: rest) aff =
        collectAffectedAll rest
          (if ¬ aff.contains t = true then aff ++ [t] else aff) := rfl
    rw [hstep]
    by_cases hm : t ∈ aff
    · have heq : (if ¬ aff.contains t = true then aff ++ [t] else aff) =
          aff :=
        if_neg (not_not_intro (List.elem_eq_true_of_mem hm))
      rw [heq, ih]
      constructor
      · rintro (h | h)
        · exact Or.inl h
        · exact Or.inr (List.mem_cons_of_mem t h)
      · rintro (h | h)
        · exact Or.inl h
        · rcases List.mem_cons.mp h with rfl | h2
          · exact Or.inl hm
          · exact Or.inr h2
    · have heq : (if ¬ aff.contains t = true then aff ++ [t] else aff) =
          aff ++ [t] :=
        if_pos (fun h => hm (List.mem_of_elem_eq_true h))
      rw [heq, ih]
      simp only [List.mem_append, List.mem_cons, List.mem_singleton]
      tauto

theorem collectAffectedSkip_mono (selfId : Nat) (terms : List Nat) :
    ∀ (aff : List Nat) (x : Nat), x ∈ aff →
      x ∈ collectAffectedSkip selfId terms aff := by
  induction terms with
  | nil => intro aff x hx; exact hx
  | cons t rest ih =>
    intro aff x hx
    have hstep : collectAffectedSkip selfId (t :: rest) aff =
        collectAffectedSkip selfId rest
          (if t ≠ selfId ∧ ¬ aff.contains t = true then aff ++ [t]
           else aff) := rfl
    rw [hstep]
    apply ih
    split
    · exact List.mem_append_left _ hx
    · exact hx

end LRPG

namespace LRPG

set_option maxHeartbeats 1000000

theorem isRoot_setFact (st : EOGState) (i : Nat) (f : RFact) (x : Nat) :
    isRoot (setFact st i f) x = isRoot st x := rfl

theorem isRoot_setEog_keep (st : EOGState) (a : Nat) (e : EOG)
    (h : e.link = (getEog st a).link) (x : Nat) :
    isRoot (setEog st a e) x = isRoot st x := by
  simp only [isRoot, getEog_setEog]
  split
  · subst_vars; rw [h]
  · rfl

theorem updateTermsToRoot_fst (st : EOGState) (fid : Nat) :
    (updateTermsToRoot st fid).1 =
      setFact st fid
        { getFact st fid with
            terms := (getFact st fid).terms.map (getRoot st) } := rfl

theorem updateTermsToRoot_snd_iff (st : EOGState) (fid : Nat) :
    (updateTermsToRoot st fid).2 = true ↔
      (getFact st fid).terms.map (getRoot st) ≠ (getFact st fid).terms := by
  simp [updateTermsToRoot]

theorem mergeFirstLoop_spec (st : EOGState) (a : Nat) :
    ∀ (l aff : List Nat),
      (mergeFirstLoop st a l aff).1 =
        l.filter
          (fun f => !((getFact st f).terms.any fun t => ¬ isRoot st t)) ∧
      ∀ x ∈ aff, x ∈ (mergeFirstLoop st a l aff).2 := by
  intro l
  induction l with
  | nil => intro aff; exact ⟨rfl, fun x hx => hx⟩
  | cons fid rest ih =>
    intro aff
    simp only [mergeFirstLoop]
    by_cases hc : (getFact st fid).terms.any (fun t => ¬ isRoot st t) = true
    · simp only [hc, if_pos, List.filter_cons, Bool.not_true]
      refine ⟨(ih aff).1, ?_⟩
      intro x hx
      exact collectAffectedSkip_mono a _ _ x ((ih aff).2 x hx)
    · simp only [hc, if_neg, Bool.false_eq_true, not_false_iff,
        List.filter_cons]
      constructor
      · rw [(ih aff).1]
        simp [hc]
      · exact (ih aff).2

end LRPG

namespace LRPG

theorem loopInv_marked_step (a b fid : Nat) (rest : List Nat)
    (st : EOGState) (aff : List Nat)
    (h : LoopInv a b st (fid :: rest) aff)
    (hm : ¬ liveF st fid) :
    LoopInv a b st rest aff := by
  obtain ⟨ha, hb, lA, lB, fB, tB, pB, lR, rA, oR, mC, pO⟩ := h
  refine ⟨ha, hb, lA, lB, fB, tB, ?_, ?_, ?_, oR, mC, ?_⟩
  · intro f hf; exact pB f (List.mem_cons_of_mem fid hf)
  · intro f hfm hlive t ht
    rcases lR f hfm hlive t ht with hroot | ⟨htb, hmem⟩
    · exact Or.inl hroot
    · refine Or.inr ⟨htb, ?_⟩
      rcases List.mem_cons.mp hmem with rfl | h2
      · exact absurd hlive hm
      · exact h2
  · intro f hfm hlive t ht hroot
    rcases rA f hfm hlive t ht hroot with hmem | ⟨hta, hmem⟩
    · exact Or.inl hmem
    · refine Or.inr ⟨hta, ?_⟩
      rcases List.mem_cons.mp hmem with rfl | h2
      · exact absurd hlive hm
      · exact h2
  · intro f hf hlive
    exact pO f (List.mem_cons_of_mem fid hf) hlive

end LRPG

namespace LRPG

theorem loopInv_append_step (a b fid : Nat) (rest : List Nat)
    (st : EOGState) (aff : List Nat) (hab : a ≠ b)
    (h : LoopInv a b st (fid :: rest) aff) (hl : liveF st fid) :
    LoopInv a b
      (setEog (updateTermsToRoot st fid).1 a
        { getEog (updateTermsToRoot st fid).1 a with
            rfacts :=
              (getEog (updateTermsToRoot st fid).1 a).rfacts ++ [fid] })
      rest aff := by
  obtain ⟨ha, hb, lA, lB, fB, tB, pB, lR, rA, oR, mC, pO⟩ := h
  have hfid_m : fid < st.m := pB fid (List.mem_cons_self fid rest)
  have hEog : ∀ x, x ≠ a →
      getEog (setEog (updateTermsToRoot st fid).1 a
        { getEog (updateTermsToRoot st fid).1 a with
            rfacts :=
              (getEog (updateTermsToRoot st fid).1 a).rfacts ++ [fid] })
        x = getEog st x := by
    intro x hxa
    rw [getEog_setEog, if_neg hxa, updateTermsToRoot_fst, getEog_setFact]
  have hEogA :
      getEog (setEog (updateTermsToRoot st fid).1 a
        { getEog (updateTermsToRoot st fid).1 a with
            rfacts :=
              (getEog (updateTermsToRoot st fid).1 a).rfacts ++ [fid] })
        a =
      { getEog st a with rfacts := (getEog st a).rfacts ++ [fid] } := by
    rw [getEog_setEog, if_pos rfl, updateTermsToRoot_fst]
    rfl
  have hlink : ∀ x,
      (getEog (setEog (updateTermsToRoot st fid).1 a
        { getEog (updateTermsToRoot st fid).1 a with
            rfacts :=
              (getEog (updateTermsToRoot st fid).1 a).rfacts ++ [fid] })
        x).link = (getEog st x).link := by
    intro x
    by_cases hxa : x = a
    · subst hxa
      rw [hEogA]
    · rw [hEog x hxa]
  have hrf : ∀ x,
      (getEog (setEog (updateTermsToRoot st fid).1 a
        { getEog (updateTermsToRoot st fid).1 a with
            rfacts :=
              (getEog (updateTermsToRoot st fid).1 a).rfacts ++ [fid] })
        x).rfacts =
        if x = a then (getEog st a).rfacts ++ [fid]
        else (getEog st x).rfacts := by
    intro x
    by_cases hxa : x = a
    · subst hxa
      rw [hEogA, if_pos rfl]
    · rw [hEog x hxa, if_neg hxa]
  have hroot : ∀ x,
      isRoot (setEog (updateTermsToRoot st fid).1 a
        { getEog (updateTermsToRoot st fid).1 a with
            rfacts :=
              (getEog (updateTermsToRoot st fid).1 a).rfacts ++ [fid] })
        x = isRoot st x := by
    intro x
    unfold isRoot
    rw [hlink x]
  have hfacts : ∀ x,
      getFact (setEog (updateTermsToRoot st fid).1 a
        { getEog (updateTermsToRoot st fid).1 a with
            rfacts :=
              (getEog (updateTermsToRoot st fid).1 a).rfacts ++ [fid] })
        x =
        if x = fid then
          { getFact st fid with
              terms := (getFact st fid).terms.map (getRoot st) }
        else getFact st x := by
    intro x
    rw [getFact_setEog, updateTermsToRoot_fst, getFact_setFact]
  have hliveIff : ∀ x,
      liveF (setEog (updateTermsToRoot st fid).1 a
        { getEog (updateTermsToRoot st fid).1 a with
            rfacts :=
              (getEog (updateTermsToRoot st fid).1 a).rfacts ++ [fid] })
        x ↔ liveF st x := by
    intro x
    unfold liveF
    rw [hfacts x]
    by_cases hx : x = fid
    · rw [if_pos hx]
      subst hx
      exact Iff.rfl
    · rw [if_neg hx]
  have hterms2 :
      (getFact (setEog (updateTermsToRoot st fid).1 a
        { getEog (updateTermsToRoot st fid).1 a with
            rfacts :=
              (getEog (updateTermsToRoot st fid).1 a).rfacts ++ [fid] })
        fid).terms = (getFact st fid).terms.map (getRoot st) := by
    rw [hfacts fid, if_pos rfl]
  have hnpos : 0 < st.n := Nat.lt_of_le_of_lt (Nat.zero_le b) hb
  have hgrb : getRoot st b = a := getRoot_of_link_to_root st a b hnpos lB lA
  have hrootA : isRoot st a = true := by
    unfold isRoot
    rw [lA]
    rfl
  have hgra : getRoot st a = a := getRoot_of_isRoot st a hrootA
  have hmap : ∀ t ∈ (getFact st fid).terms,
      (isRoot st t = true ∧ getRoot st t = t) ∨
        (t = b ∧ getRoot st t = a) := by
    intro t ht
    rcases lR fid hfid_m hl t ht with hr | ⟨rfl, _⟩
    · exact Or.inl ⟨hr, getRoot_of_isRoot st t hr⟩
    · exact Or.inr ⟨rfl, hgrb⟩
  have hnewroot : ∀ u ∈ (getFact st fid).terms.map (getRoot st),
      isRoot st u = true ∧ (u = a ∨ u ∈ (getFact st fid).terms) := by
    intro u hu
    obtain ⟨t, ht, hft⟩ := List.mem_map.mp hu
    rcases hmap t ht with ⟨hr, he⟩ | ⟨rfl, he⟩
    · rw [← hft, he]
      exact ⟨hr, Or.inr ht⟩
    · rw [← hft, he]
      exact ⟨hrootA, Or.inl rfl⟩
  have hmemnew : ∀ t ∈ (getFact st fid).terms,
      getRoot st t ∈ (getFact st fid).terms.map (getRoot st) :=
    fun t ht => List.mem_map_of_mem (getRoot st) ht
  refine ⟨ha, hb, ?_, ?_, ?_, ?_, ?_, ?_, ?_, ?_, ?_, ?_⟩
  · rw [hlink a]
    exact lA
  · rw [hlink b]
    exact lB
  · intro g hg f hf
    rw [hrf g] at hf
    by_cases hga : g = a
    · rw [if_pos hga] at hf
      rcases List.mem_append.mp hf with h2 | h2
      · exact fB a ha f h2
      · rw [List.mem_singleton] at h2
        subst h2
        exact hfid_m
    · rw [if_neg hga] at hf
      exact fB g hg f hf
  · intro f hfm t ht
    by_cases hf : f = fid
    · subst hf
      rw [hterms2] at ht
      rcases (hnewroot t ht).2 with rfl | hmem
      · exact ha
      · exact tB f hfid_m t hmem
    · rw [hfacts f, if_neg hf] at ht
      exact tB f hfm t ht
  · intro f hf
    exact pB f (List.mem_cons_of_mem fid hf)
  · intro f hfm hlive2 t ht
    have hlivef := (hliveIff f).mp hlive2
    by_cases hf : f = fid
    · subst hf
      rw [hterms2] at ht
      rw [hroot t]
      exact Or.inl (hnewroot t ht).1
    · rw [hfacts f, if_neg hf] at ht
      rcases lR f hfm hlivef t ht with hr | ⟨rfl, hmem⟩
      · rw [hroot t]
        exact Or.inl hr
      · refine Or.inr ⟨rfl, ?_⟩
        rcases List.mem_cons.mp hmem with h2 | h2
        · exact absurd h2 hf
        · exact h2
  · intro f hfm hlive2 t ht hrt
    have hlivef := (hliveIff f).mp hlive2
    rw [hroot t] at hrt
    by_cases hf : f = fid
    · subst hf
      rw [hterms2] at ht
      obtain ⟨t0, ht0, hft⟩ := List.mem_map.mp ht
      left
      rw [hrf t]
      rcases hmap t0 ht0 with ⟨hr0, he0⟩ | ⟨rfl, he0⟩
      · rw [he0] at hft
        subst hft
        rcases rA f hfid_m hl t0 ht0 hr0 with hmem | ⟨rfl, _⟩
        · by_cases hta : t0 = a
          · rw [if_pos hta]
            subst hta
            exact List.mem_append_left _ hmem
          · rw [if_neg hta]
            exact hmem
        · rw [if_pos rfl]
          exact List.mem_append_right _ (List.mem_singleton.mpr rfl)
      · rw [he0] at hft
        subst hft
        rw [if_pos rfl]
        exact List.mem_append_right _ (List.mem_singleton.mpr rfl)
    · rw [hfacts f, if_neg hf] at ht
      rcases rA f hfm hlivef t ht hrt with hmem | ⟨rfl, hmem⟩
      · left
        rw [hrf t]
        by_cases hta : t = a
        · rw [if_pos hta]
          subst hta
          exact List.mem_append_left _ hmem
        · rw [if_neg hta]
          exact hmem
      · refine Or.inr ⟨rfl, ?_⟩
        rcases List.mem_cons.mp hmem with h2 | h2
        · exact absurd h2 hf
        · exact h2
  · intro g hg hgroot f hf hlive2
    rw [hroot g] at hgroot
    rw [hrf g] at hf
    have hlivef := (hliveIff f).mp hlive2
    by_cases hffid : f = fid
    · subst hffid
      rw [hterms2]
      by_cases hga : g = a
      · subst hga
        rcases pO f (List.mem_cons_self f rest) hl with h0 | hb2 | ha2
        · left
          rw [h0]
          rfl
        · right
          have := hmemnew b hb2
          rw [hgrb] at this
          exact this
        · right
          have := hmemnew g ha2
          rw [hgra] at this
          exact this
      · rw [if_neg hga] at hf
        rcases oR g hg hgroot f hf hl with h0 | hmem
        · left
          rw [h0]
          rfl
        · right
          have := hmemnew g hmem
          rw [getRoot_of_isRoot st g hgroot] at this
          exact this
    · rw [hfacts f, if_neg hffid]
      by_cases hga : g = a
      · subst hga
        rw [if_pos rfl] at hf
        rcases List.mem_append.mp hf with h2 | h2
        · exact oR g ha hgroot f h2 hlivef
        · rw [List.mem_singleton] at h2
          exact absurd h2 hffid
      · rw [if_neg hga] at hf
        exact oR g hg hgroot f hf hlivef
  · intro g hg hgroot f hf hnlive
    rw [hroot g] at hgroot
    rw [hrf g] at hf
    have hnl : ¬ liveF st f := fun h2 => hnlive ((hliveIff f).mpr h2)
    by_cases hga : g = a
    · subst hga
      rw [if_pos rfl] at hf
      rcases List.mem_append.mp hf with h2 | h2
      · exact mC g ha hgroot f h2 hnl
      · rw [List.mem_singleton] at h2
        subst h2
        exact absurd hl hnl
    · rw [if_neg hga] at hf
      exact mC g hg hgroot f hf hnl
  · intro f hfr hlive2
    have hlivef := (hliveIff f).mp hlive2
    by_cases hffid : f = fid
    · subst hffid
      rw [hterms2]
      rcases pO f (List.mem_cons_self f rest) hl with h0 | hb2 | ha2
      · left
        rw [h0]
        rfl
      · right
        right
        have := hmemnew b hb2
        rw [hgrb] at this
        exact this
      · right
        right
        have := hmemnew a ha2
        rw [hgra] at this
        exact this
    · rw [hfacts f, if_neg hffid]
      exact pO f (List.mem_cons_of_mem fid hfr) hlivef

end LRPG

namespace LRPG

theorem loopInv_tombstone_step (a b fid u : Nat) (rest : List Nat)
    (st : EOGState) (aff : List Nat) (hab : a ≠ b)
    (h : LoopInv a b st (fid :: rest) aff) (hl : liveF st fid)
    (hch : (updateTermsToRoot st fid).2 = true) :
    LoopInv a b (replaceBy (updateTermsToRoot st fid).1 fid u) rest
      (collectAffectedAll
        (getFact (replaceBy (updateTermsToRoot st fid).1 fid u) fid).terms
        aff) := by
  obtain ⟨ha, hb, lA, lB, fB, tB, pB, lR, rA, oR, mC, pO⟩ := h
  have hfid_m : fid < st.m := pB fid (List.mem_cons_self fid rest)
  have hEog : ∀ x,
      getEog (replaceBy (updateTermsToRoot st fid).1 fid u) x =
        getEog st x := fun _ => rfl
  have hfacts : ∀ x,
      getFact (replaceBy (updateTermsToRoot st fid).1 fid u) x =
        if x = fid then
          { getFact st fid with
              terms := (getFact st fid).terms.map (getRoot st),
              replacedBy := some u }
        else getFact st x := by
    intro x
    by_cases hx : x = fid
    · subst hx
      rw [if_pos rfl]
      simp [replaceBy, updateTermsToRoot_fst, getFact_setFact]
    · rw [if_neg hx]
      unfold replaceBy
      rw [getFact_setFact, if_neg hx, updateTermsToRoot_fst,
        getFact_setFact, if_neg hx]
  have hterms2 :
      (getFact (replaceBy (updateTermsToRoot st fid).1 fid u) fid).terms =
        (getFact st fid).terms.map (getRoot st) := by
    rw [hfacts fid, if_pos rfl]
  have hdead : ¬ liveF (replaceBy (updateTermsToRoot st fid).1 fid u)
      fid := by
    unfold liveF
    rw [hfacts fid, if_pos rfl]
    simp
  have hliveIff : ∀ x, x ≠ fid →
      (liveF (replaceBy (updateTermsToRoot st fid).1 fid u) x ↔
        liveF st x) := by
    intro x hx
    unfold liveF
    rw [hfacts x, if_neg hx]
  have hnpos : 0 < st.n := Nat.lt_of_le_of_lt (Nat.zero_le b) hb
  have hgrb : getRoot st b = a := getRoot_of_link_to_root st a b hnpos lB lA
  have hrootA : isRoot st a = true := by
    unfold isRoot
    rw [lA]
    rfl
  have hgra : getRoot st a = a := getRoot_of_isRoot st a hrootA
  have hmap : ∀ t ∈ (getFact st fid).terms,
      (isRoot st t = true ∧ getRoot st t = t) ∨
        (t = b ∧ getRoot st t = a) := by
    intro t ht
    rcases lR fid hfid_m hl t ht with hr | ⟨rfl, _⟩
    · exact Or.inl ⟨hr, getRoot_of_isRoot st t hr⟩
    · exact Or.inr ⟨rfl, hgrb⟩
  have hnewroot : ∀ v ∈ (getFact st fid).terms.map (getRoot st),
      isRoot st v = true ∧ (v = a ∨ v ∈ (getFact st fid).terms) := by
    intro v hv
    obtain ⟨t, ht, hft⟩ := List.mem_map.mp hv
    rcases hmap t ht with ⟨hr, he⟩ | ⟨rfl, he⟩
    · rw [← hft, he]
      exact ⟨hr, Or.inr ht⟩
    · rw [← hft, he]
      exact ⟨hrootA, Or.inl rfl⟩
  have hne : (getFact st fid).terms ≠ [] := by
    intro h0
    have h2 := (updateTermsToRoot_snd_iff st fid).mp hch
    rw [h0] at h2
    exact h2 rfl
  have haffsub : ∀ x ∈ aff,
      x ∈ collectAffectedAll
        (getFact (replaceBy (updateTermsToRoot st fid).1 fid u) fid).terms
        aff :=
    fun x hx => (collectAffectedAll_mem_iff _ aff x).mpr (Or.inl hx)
  have hnewaff : ∀ x ∈
      (getFact (replaceBy (updateTermsToRoot st fid).1 fid u) fid).terms,
      x ∈ collectAffectedAll
        (getFact (replaceBy (updateTermsToRoot st fid).1 fid u) fid).terms
        aff :=
    fun x hx => (collectAffectedAll_mem_iff _ aff x).mpr (Or.inr hx)
  refine ⟨ha, hb, ?_, ?_, ?_, ?_, ?_, ?_, ?_, ?_, ?_, ?_⟩
  · rw [hEog a]
    exact lA
  · rw [hEog b]
    exact lB
  · intro g hg f hf
    rw [hEog g] at hf
    exact fB g hg f hf
  · intro f hfm t ht
    by_cases hf : f = fid
    · subst hf
      rw [hterms2] at ht
      rcases (hnewroot t ht).2 with rfl | hmem
      · exact ha
      · exact tB f hfid_m t hmem
    · rw [hfacts f, if_neg hf] at ht
      exact tB f hfm t ht
  · intro f hf
    exact pB f (List.mem_cons_of_mem fid hf)
  · intro f hfm hlive2 t ht
    by_cases hf : f = fid
    · subst hf
      exact absurd hlive2 hdead
    · have hlivef := (hliveIff f hf).mp hlive2
      rw [hfacts f, if_neg hf] at ht
      rcases lR f hfm hlivef t ht with hr | ⟨rfl, hmem⟩
      · exact Or.inl hr
      · refine Or.inr ⟨rfl, ?_⟩
        rcases List.mem_cons.mp hmem with h2 | h2
        · exact absurd h2 hf
        · exact h2
  · intro f hfm hlive2 t ht hrt
    by_cases hf : f = fid
    · subst hf
      exact absurd hlive2 hdead
    · have hlivef := (hliveIff f hf).mp hlive2
      rw [hfacts f, if_neg hf] at ht
      rcases rA f hfm hlivef t ht hrt with hmem | ⟨rfl, hmem⟩
      · exact Or.inl hmem
      · refine Or.inr ⟨rfl, ?_⟩
        rcases List.mem_cons.mp hmem with h2 | h2
        · exact absurd h2 hf
        · exact h2
  · intro g hg hgroot f hf hlive2
    by_cases hffid : f = fid
    · subst hffid
      exact absurd hlive2 hdead
    · have hlivef := (hliveIff f hffid).mp hlive2
      rw [hEog g] at hf
      rw [hfacts f, if_neg hffid]
      exact oR g hg hgroot f hf hlivef
  · intro g hg hgroot f hf hnlive
    rw [hEog g] at hf
    by_cases hffid : f = fid
    · subst hffid
      rcases oR g hg hgroot f hf hl with h0 | hmem
      · exact absurd h0 hne
      · have hmem2 := List.mem_map_of_mem (getRoot st) hmem
        rw [getRoot_of_isRoot st g hgroot] at hmem2
        rw [← hterms2] at hmem2
        exact hnewaff g hmem2
    · have hnl : ¬ liveF st f :=
        fun h2 => hnlive ((hliveIff f hffid).mpr h2)
      exact haffsub g (mC g hg hgroot f hf hnl)
  · intro f hfr hlive2
    by_cases hffid : f = fid
    · subst hffid
      exact absurd hlive2 hdead
    · have hlivef := (hliveIff f hffid).mp hlive2
      rw [hfacts f, if_neg hffid]
      exact pO f (List.mem_cons_of_mem fid hfr) hlivef

end LRPG

namespace LRPG

theorem rootOf_congr (st st2 : EOGState)
    (hlink : ∀ x, (getEog st2 x).link = (getEog st x).link) :
    ∀ (k g : Nat), rootOf st2 k g = rootOf st k g := by
  intro k
  induction k with
  | zero => intro g; rfl
  | succ i ih =>
    intro g
    show (match (getEog st2 g).link with
      | none => g
      | some l => rootOf st2 i l) = _
    rw [hlink g]
    cases hl : (getEog st g).link with
    | none => simp [rootOf, hl]
    | some l =>
      simp only [rootOf, hl]
      exact ih l

theorem isRoot_congr (st st2 : EOGState)
    (hlink : ∀ x, (getEog st2 x).link = (getEog st x).link) (g : Nat) :
    isRoot st2 g = isRoot st g := by
  unfold isRoot
  rw [hlink g]

theorem nonRootCount_congr (st st2 : EOGState) (hn : st2.n = st.n)
    (hlink : ∀ x, (getEog st2 x).link = (getEog st x).link) :
    nonRootCount st2 = nonRootCount st := by
  unfold nonRootCount
  rw [hn]
  congr 1
  apply List.filter_congr
  intro x _
  simp [isRoot_congr st st2 hlink x]

theorem passInv_congr (st st2 : EOGState) (hn : st2.n = st.n)
    (hm : st2.m = st.m)
    (hlink : ∀ x, (getEog st2 x).link = (getEog st x).link)
    (hrf : ∀ x, (getEog st2 x).rfacts = (getEog st x).rfacts)
    (hfacts : ∀ x, getFact st2 x = getFact st x) (aff : List Nat)
    (h : PassInv st aff) : PassInv st2 aff := by
  obtain ⟨lb, rr, fb, tb, lr, rg, oR, mc⟩ := h
  have hlive : ∀ f, liveF st2 f ↔ liveF st f := by
    intro f
    unfold liveF
    rw [hfacts f]
  have hroot : ∀ g, isRoot st2 g = isRoot st g :=
    isRoot_congr st st2 hlink
  refine ⟨?_, ?_, ?_, ?_, ?_, ?_, ?_, ?_⟩
  · intro g hg l hl
    rw [hn] at hg ⊢
    rw [hlink g] at hl
    exact lb g hg l hl
  · intro g hg
    rw [hn] at hg
    rw [hroot _, rootOf_congr st st2 hlink,
      nonRootCount_congr st st2 hn hlink]
    exact rr g hg
  · intro g hg f hf
    rw [hn] at hg
    rw [hrf g] at hf
    rw [hm]
    exact fb g hg f hf
  · intro f hf t ht
    rw [hm] at hf
    rw [hfacts f] at ht
    rw [hn]
    exact tb f hf t ht
  · intro f hf hl t ht
    rw [hm] at hf
    rw [hlive f] at hl
    rw [hfacts f] at ht
    rw [hroot t]
    exact lr f hf hl t ht
  · intro f hf hl t ht
    rw [hm] at hf
    rw [hlive f] at hl
    rw [hfacts f] at ht
    rw [hrf t]
    exact rg f hf hl t ht
  · intro g hg hgr f hf hl
    rw [hn] at hg
    rw [hroot g] at hgr
    rw [hrf g] at hf
    rw [hlive f] at hl
    rw [hfacts f]
    exact oR g hg hgr f hf hl
  · intro g hg hgr f hf hl
    rw [hn] at hg
    rw [hroot g] at hgr
    rw [hrf g] at hf
    rw [hlive f] at hl
    exact mc g hg hgr f hf hl

theorem filter_len_mono {p q : Nat → Bool} :
    ∀ l : List Nat, (∀ x ∈ l, p x = true → q x = true) →
      (l.filter p).length ≤ (l.filter q).length := by
  intro l
  induction l with
  | nil => intro _; exact Nat.le_refl 0
  | cons x xs ih =>
    intro h
    have hxs := ih (fun y hy => h y (List.mem_cons_of_mem x hy))
    by_cases hp : p x = true
    · have hq := h x (List.mem_cons_self x xs) hp
      simp only [List.filter_cons, hp, hq, if_pos, List.length_cons]
      exact Nat.succ_le_succ hxs
    · rw [List.filter_cons]
      rw [if_neg hp]
      by_cases hq : q x = true
      · rw [List.filter_cons, if_pos hq]
        exact Nat.le_trans hxs (Nat.le_succ _)
      · rw [List.filter_cons, if_neg hq]
        exact hxs

theorem filter_len_lt {p q : Nat → Bool} (b : Nat) :
    ∀ l : List Nat, b ∈ l → p b = false → q b = true →
      (∀ x ∈ l, p x = true → q x = true) →
      (l.filter p).length < (l.filter q).length := by
  intro l
  induction l with
  | nil => intro hb; cases hb
  | cons x xs ih =>
    intro hb hp hq h
    have hmono := filter_len_mono xs
      (fun y hy => h y (List.mem_cons_of_mem x hy))
    rcases List.mem_cons.mp hb with rfl | hb2
    · simp only [List.filter_cons, hp, hq]
      simp only [Bool.false_eq_true, if_false, if_pos, List.length_cons]
      exact Nat.lt_succ_of_le hmono
    · have hxs := ih hb2 hp hq (fun y hy => h y (List.mem_cons_of_mem x hy))
      by_cases hpx : p x = true
      · have hqx := h x (List.mem_cons_self x xs) hpx
        simp only [List.filter_cons, hpx, hqx, if_pos, List.length_cons]
        exact Nat.succ_lt_succ hxs
      · rw [List.filter_cons, if_neg hpx]
        by_cases hqx : q x = true
        · rw [List.filter_cons, if_pos hqx]
          exact Nat.lt_trans hxs (Nat.lt_succ_self _)
        · rw [List.filter_cons, if_neg hqx]
          exact hxs

end LRPG

namespace LRPG

theorem isRoot_congr_at (st st2 : EOGState) (x : Nat)
    (h : (getEog st2 x).link = (getEog st x).link) :
    isRoot st2 x = isRoot st x := by
  unfold isRoot
  rw [h]

end LRPG

namespace LRPG

theorem nonRootCount_link_lt (st st2 : EOGState) (a b : Nat)
    (hn : st2.n = st.n) (hb : b < st.n)
    (hlink : ∀ x, x ≠ b → (getEog st2 x).link = (getEog st x).link)
    (hlb2 : (getEog st2 b).link = some a)
    (hrb : isRoot st b = true) :
    nonRootCount st + 1 ≤ nonRootCount st2 := by
  unfold nonRootCount
  rw [hn]
  refine Nat.succ_le_of_lt (filter_len_lt b (List.range st.n) ?_ ?_ ?_ ?_)
  · exact List.mem_range.mpr hb
  · simp [hrb]
  · have h2 : isRoot st2 b = false := by
      unfold isRoot
      rw [hlb2]
      rfl
    simp [h2]
  · intro x _ hpx
    simp only [decide_eq_true_eq] at hpx ⊢
    by_cases hxb : x = b
    · subst hxb
      rw [hrb] at hpx
      exact absurd rfl hpx
    · rw [isRoot_congr_at st st2 x (hlink x hxb)]
      exact hpx

theorem rootReach_link_extend (st st2 : EOGState) (a b : Nat)
    (hlink : ∀ x, x ≠ b → (getEog st2 x).link = (getEog st x).link)
    (hlb2 : (getEog st2 b).link = some a)
    (hla : (getEog st a).link = none) (hab : a ≠ b) :
    ∀ (k g : Nat), isRoot st (rootOf st k g) = true →
      isRoot st2 (rootOf st2 (k + 1) g) = true := by
  have hra2 : isRoot st2 a = true := by
    unfold isRoot
    rw [hlink a hab, hla]
    rfl
  intro k
  induction k with
  | zero =>
    intro g h
    by_cases hgb : g = b
    · rw [hgb]
      show isRoot st2 (match (getEog st2 b).link with
        | none => b
        | some l => rootOf st2 0 l) = true
      rw [hlb2]
      exact hra2
    · have hg : (getEog st g).link = none := by
        simpa [isRoot, Option.isNone_iff_eq_none] using h
      show isRoot st2 (match (getEog st2 g).link with
        | none => g
        | some l => rootOf st2 0 l) = true
      rw [hlink g hgb, hg]
      unfold isRoot
      rw [hlink g hgb, hg]
      rfl
  | succ k ih =>
    intro g h
    by_cases hgb : g = b
    · rw [hgb]
      show isRoot st2 (match (getEog st2 b).link with
        | none => b
        | some l => rootOf st2 (k + 1) l) = true
      rw [hlb2]
      refine ih a ?_
      rw [rootOf_of_isRoot st k a (by unfold isRoot; rw [hla]; rfl)]
      unfold isRoot
      rw [hla]
      rfl
    · cases hg : (getEog st g).link with
      | none =>
        show isRoot st2 (match (getEog st2 g).link with
          | none => g
          | some l => rootOf st2 (k + 1) l) = true
        rw [hlink g hgb, hg]
        unfold isRoot
        rw [hlink g hgb, hg]
        rfl
      | some l =>
        have h2 : isRoot st (rootOf st k l) = true := by
          have : rootOf st (k + 1) g = rootOf st k l := by
            show (match (getEog st g).link with
              | none => g
              | some l => rootOf st k l) = rootOf st k l
            rw [hg]
          rw [this] at h
          exact h
        have h3 := ih l h2
        show isRoot st2 (match (getEog st2 g).link with
          | none => g
          | some l => rootOf st2 (k + 1) l) = true
        rw [hlink g hgb, hg]
        exact h3

end LRPG

namespace LRPG

theorem mergeOtherLoop_cons_marked (fI : EOGState → Nat → Nat → Bool)
    (a fid : Nat) (rest : List Nat) (st : EOGState)
    (updated aff : List Nat) (hm : isMarkedForRemoval st fid = true) :
    mergeOtherLoop fI a st (fid :: rest) updated aff =
      mergeOtherLoop fI a st rest updated aff := by
  simp [mergeOtherLoop, hm]

theorem mergeOtherLoop_cons_tomb (fI : EOGState → Nat → Nat → Bool)
    (a fid u : Nat) (rest : List Nat) (st : EOGState)
    (updated aff : List Nat) (hm : isMarkedForRemoval st fid = false)
    (hch : (updateTermsToRoot st fid).2 = true)
    (hfind : updated.find?
      (fun v => fI (updateTermsToRoot st fid).1 v fid) = some u) :
    mergeOtherLoop fI a st (fid :: rest) updated aff =
      mergeOtherLoop fI a (replaceBy (updateTermsToRoot st fid).1 fid u)
        rest updated
        (collectAffectedAll
          (getFact (replaceBy (updateTermsToRoot st fid).1 fid u)
            fid).terms aff) := by
  simp [mergeOtherLoop, hm, hch, hfind]

theorem mergeOtherLoop_cons_add (fI : EOGState → Nat → Nat → Bool)
    (a fid : Nat) (rest : List Nat) (st : EOGState)
    (updated aff : List Nat) (hm : isMarkedForRemoval st fid = false)
    (hch : (updateTermsToRoot st fid).2 = true)
    (hfind : updated.find?
      (fun v => fI (updateTermsToRoot st fid).1 v fid) = none) :
    mergeOtherLoop fI a st (fid :: rest) updated aff =
      mergeOtherLoop fI a
        (setEog (updateTermsToRoot st fid).1 a
          { getEog (updateTermsToRoot st fid).1 a with
              rfacts :=
                (getEog (updateTermsToRoot st fid).1 a).rfacts ++ [fid] })
        rest (updated ++ [fid]) aff := by
  simp [mergeOtherLoop, hm, hch, hfind]

theorem mergeOtherLoop_cons_keep (fI : EOGState → Nat → Nat → Bool)
    (a fid : Nat) (rest : List Nat) (st : EOGState)
    (updated aff : List Nat) (hm : isMarkedForRemoval st fid = false)
    (hch : (updateTermsToRoot st fid).2 = false) :
    mergeOtherLoop fI a st (fid :: rest) updated aff =
      mergeOtherLoop fI a
        (setEog (updateTermsToRoot st fid).1 a
          { getEog (updateTermsToRoot st fid).1 a with
              rfacts :=
                (getEog (updateTermsToRoot st fid).1 a).rfacts ++ [fid] })
        rest updated aff := by
  simp [mergeOtherLoop, hm, hch]

theorem mergeOtherLoop_inv (fI : EOGState → Nat → Nat → Bool) (a b : Nat)
    (hab : a ≠ b) :
    ∀ (pending : List Nat) (st : EOGState) (updated aff : List Nat),
      LoopInv a b st pending aff →
        LoopInv a b (mergeOtherLoop fI a st pending updated aff).1 []
            (mergeOtherLoop fI a st pending updated aff).2.2 ∧
          ∀ x ∈ aff,
            x ∈ (mergeOtherLoop fI a st pending updated aff).2.2 := by
  intro pending
  induction pending with
  | nil =>
    intro st updated aff h
    exact ⟨h, fun x hx => hx⟩
  | cons fid rest ih =>
    intro st updated aff h
    by_cases hm : isMarkedForRemoval st fid = true
    · rw [mergeOtherLoop_cons_marked fI a fid rest st updated aff hm]
      have hml : ¬ liveF st fid := by
        intro hlive
        unfold isMarkedForRemoval at hm
        unfold liveF at hlive
        rw [hlive] at hm
        simp at hm
      exact ih st updated aff (loopInv_marked_step a b fid rest st aff h hml)
    · have hm2 : isMarkedForRemoval st fid = false := by
        simp only [Bool.not_eq_true] at hm
        exact hm
      have hlive : liveF st fid := by
        unfold liveF
        unfold isMarkedForRemoval at hm2
        cases hrb : (getFact st fid).replacedBy with
        | none => rfl
        | some v =>
          rw [hrb] at hm2
          simp at hm2
      by_cases hch : (updateTermsToRoot st fid).2 = true
      · cases hfind : updated.find?
          (fun v => fI (updateTermsToRoot st fid).1 v fid) with
        | some u =>
          rw [mergeOtherLoop_cons_tomb fI a fid u rest st updated aff hm2
            hch hfind]
          have hstep :=
            loopInv_tombstone_step a b fid u rest st aff hab h hlive hch
          have hres := ih _ updated _ hstep
          refine ⟨hres.1, fun x hx => hres.2 x ?_⟩
          exact (collectAffectedAll_mem_iff _ aff x).mpr (Or.inl hx)
        | none =>
          rw [mergeOtherLoop_cons_add fI a fid rest st updated aff hm2 hch
            hfind]
          exact ih _ _ aff (loopInv_append_step a b fid rest st aff hab h
            hlive)
      · have hch2 : (updateTermsToRoot st fid).2 = false := by
          simp only [Bool.not_eq_true] at hch
          exact hch
        rw [mergeOtherLoop_cons_keep fI a fid rest st updated aff hm2 hch2]
        exact ih _ updated aff (loopInv_append_step a b fid rest st aff hab
          h hlive)

end LRPG

namespace LRPG

theorem passInv_of_loopInv (stO : EOGState) (a b : Nat) (affO : List Nat)
    (h : LoopInv a b stO [] affO)
    (hlb : ∀ g, g < stO.n → ∀ l, (getEog stO g).link = some l → l < stO.n)
    (hrr : ∀ g, g < stO.n →
      isRoot stO (rootOf stO (nonRootCount stO) g) = true) :
    PassInv stO affO := by
  obtain ⟨ha, hb, lA, lB, fB, tB, pB, lR, rA, oR, mC, pO⟩ := h
  refine ⟨hlb, hrr, fB, tB, ?_, ?_, oR, mC⟩
  · intro f hf hl t ht
    rcases lR f hf hl t ht with hr | ⟨_, hmem⟩
    · exact hr
    · cases hmem
  · intro f hf hl t ht
    have hr : isRoot stO t = true := by
      rcases lR f hf hl t ht with hr | ⟨_, hmem⟩
      · exact hr
      · cases hmem
    rcases rA f hf hl t ht hr with hmem | ⟨_, hmem⟩
    · exact hmem
    · cases hmem

theorem loopInv_entry (st st3 : EOGState) (a b : Nat)
    (aff aff3 : List Nat) (h : PassInv st aff)
    (hn : st3.n = st.n) (hm : st3.m = st.m)
    (ha : a < st.n) (hb : b < st.n) (hra : isRoot st a = true)
    (hrb : isRoot st b = true) (hab : a ≠ b)
    (hfacts : ∀ x, getFact st3 x = getFact st x)
    (hlink : ∀ x, x ≠ b → (getEog st3 x).link = (getEog st x).link)
    (hlinkb : (getEog st3 b).link = some a)
    (hmemA : ∀ f, f ∈ (getEog st3 a).rfacts ↔
      (f ∈ (getEog st a).rfacts ∧
        ∀ t ∈ (getFact st f).terms, isRoot st3 t = true))
    (hrfO : ∀ x, x ≠ a → (getEog st3 x).rfacts = (getEog st x).rfacts)
    (haffsub : ∀ x ∈ aff, x ∈ aff3) :
    LoopInv a b st3 (getEog st3 b).rfacts aff3 := by
  obtain ⟨lb, rr, fb, tb, lr, rg, oR, mc⟩ := h
  have hba : b ≠ a := fun h2 => hab h2.symm
  have hrootx : ∀ x, x ≠ b → isRoot st3 x = isRoot st x :=
    fun x hx => isRoot_congr_at st st3 x (hlink x hx)
  have hrootb : isRoot st3 b = false := by
    unfold isRoot
    rw [hlinkb]
    rfl
  have hla : (getEog st a).link = none := by
    simpa [isRoot, Option.isNone_iff_eq_none] using hra
  have hpendeq : (getEog st3 b).rfacts = (getEog st b).rfacts :=
    hrfO b hba
  have hlive : ∀ f, liveF st3 f ↔ liveF st f := by
    intro f
    unfold liveF
    rw [hfacts f]
  refine ⟨?_, ?_, ?_, ?_, ?_, ?_, ?_, ?_, ?_, ?_, ?_, ?_⟩
  · rw [hn]
    exact ha
  · rw [hn]
    exact hb
  · rw [hlink a hab]
    exact hla
  · exact hlinkb
  · intro g hg f hf
    rw [hn] at hg
    rw [hm]
    by_cases hga : g = a
    · subst hga
      exact fb g hg f ((hmemA f).mp hf).1
    · rw [hrfO g hga] at hf
      exact fb g hg f hf
  · intro f hf t ht
    rw [hm] at hf
    rw [hfacts f] at ht
    rw [hn]
    exact tb f hf t ht
  · intro f hf
    rw [hpendeq] at hf
    rw [hm]
    exact fb b hb f hf
  · intro f hf hl t ht
    rw [hm] at hf
    rw [hlive f] at hl
    rw [hfacts f] at ht
    by_cases htb : t = b
    · subst htb
      refine Or.inr ⟨rfl, ?_⟩
      rw [hpendeq]
      exact rg f hf hl t ht
    · rw [hrootx t htb]
      exact Or.inl (lr f hf hl t ht)
  · intro f hf hl t ht hrt
    rw [hm] at hf
    rw [hlive f] at hl
    rw [hfacts f] at ht
    have htb : t ≠ b := by
      intro h2
      rw [h2, hrootb] at hrt
      cases hrt
    by_cases hta : t = a
    · subst hta
      by_cases hbt : b ∈ (getFact st f).terms
      · refine Or.inr ⟨rfl, ?_⟩
        rw [hpendeq]
        exact rg f hf hl b hbt
      · refine Or.inl ((hmemA f).mpr ⟨rg f hf hl t ht, ?_⟩)
        intro u hu
        have hub : u ≠ b := fun h2 => hbt (h2 ▸ hu)
        rw [hrootx u hub]
        exact lr f hf hl u hu
    · rw [hrfO t hta]
      exact Or.inl (rg f hf hl t ht)
  · intro g hg hgr f hf hl
    rw [hn] at hg
    rw [hlive f] at hl
    rw [hfacts f]
    have hgb : g ≠ b := by
      intro h2
      rw [h2, hrootb] at hgr
      cases hgr
    rw [hrootx g hgb] at hgr
    by_cases hga : g = a
    · subst hga
      exact oR g hg hgr f ((hmemA f).mp hf).1 hl
    · rw [hrfO g hga] at hf
      exact oR g hg hgr f hf hl
  · intro g hg hgr f hf hnl
    rw [hn] at hg
    have hnl2 : ¬ liveF st f := fun h2 => hnl ((hlive f).mpr h2)
    have hgb : g ≠ b := by
      intro h2
      rw [h2, hrootb] at hgr
      cases hgr
    rw [hrootx g hgb] at hgr
    by_cases hga : g = a
    · subst hga
      exact haffsub g (mc g hg hgr f ((hmemA f).mp hf).1 hnl2)
    · rw [hrfO g hga] at hf
      exact haffsub g (mc g hg hgr f hf hnl2)
  · intro f hf hl
    rw [hpendeq] at hf
    rw [hlive f] at hl
    rw [hfacts f]
    rcases oR b hb hrb f hf hl with h0 | hmem
    · exact Or.inl h0
    · exact Or.inr (Or.inl hmem)

end LRPG

namespace LRPG

theorem mergeEOG_passInv (fI : EOGState → Nat → Nat → Bool)
    (st : EOGState) (a b : Nat) (aff : List Nat)
    (h : PassInv st aff) (ha : a < st.n) (hb : b < st.n)
    (hra : isRoot st a = true) (hrb : isRoot st b = true)
    (hab : a ≠ b) :
    PassInv (mergeEOG fI st a b aff).1 (mergeEOG fI st a b aff).2 ∧
      (mergeEOG fI st a b aff).1.n = st.n ∧
      (mergeEOG fI st a b aff).1.m = st.m ∧
      ∀ x ∈ aff, x ∈ (mergeEOG fI st a b aff).2 := by
  set st1 := setEog st a
    { getEog st a with
        eqObjs := (getEog st a).eqObjs ++ (getEog st b).eqObjs } with hst1
  set st2 := setEog st1 b { getEog st1 b with link := some a } with hst2
  set fl := mergeFirstLoop st2 a (getEog st2 a).rfacts aff with hfl
  set st3 := setEog st2 a { getEog st2 a with rfacts := fl.1 } with hst3
  have hba : b ≠ a := fun h2 => hab h2.symm
  have hE2a : getEog st2 a =
      { getEog st a with
          eqObjs := (getEog st a).eqObjs ++ (getEog st b).eqObjs } := by
    rw [hst2, getEog_setEog, if_neg hab, hst1, getEog_setEog, if_pos rfl]
  have hE2b : getEog st2 b = { getEog st b with link := some a } := by
    rw [hst2, getEog_setEog, if_pos rfl, hst1, getEog_setEog, if_neg hba]
  have hE2x : ∀ x, x ≠ a → x ≠ b → getEog st2 x = getEog st x := by
    intro x hxa hxb
    rw [hst2, getEog_setEog, if_neg hxb, hst1, getEog_setEog, if_neg hxa]
  have hE3a : getEog st3 a = { getEog st2 a with rfacts := fl.1 } := by
    rw [hst3, getEog_setEog, if_pos rfl]
  have hE3x : ∀ x, x ≠ a → getEog st3 x = getEog st2 x := by
    intro x hx
    rw [hst3, getEog_setEog, if_neg hx]
  have hroot23 : ∀ x, isRoot st3 x = isRoot st2 x := by
    intro x
    rw [hst3]
    exact isRoot_setEog_keep st2 a { getEog st2 a with rfacts := fl.1 }
      rfl x
  have hrf2a : (getEog st2 a).rfacts = (getEog st a).rfacts := by
    rw [hE2a]
  have hfl1 : fl.1 = (getEog st2 a).rfacts.filter
      (fun f => !((getFact st2 f).terms.any fun t => ¬ isRoot st2 t)) :=
    (mergeFirstLoop_spec st2 a (getEog st2 a).rfacts aff).1
  have hlink3 : ∀ x, x ≠ b →
      (getEog st3 x).link = (getEog st x).link := by
    intro x hxb
    by_cases hxa : x = a
    · rw [hxa, hE3a, hE2a]
    · rw [hE3x x hxa, hE2x x hxa hxb]
  have hlinkb3 : (getEog st3 b).link = some a := by
    rw [hE3x b hba, hE2b]
  have hfacts3 : ∀ x, getFact st3 x = getFact st x := fun x => rfl
  have hrfO3 : ∀ x, x ≠ a →
      (getEog st3 x).rfacts = (getEog st x).rfacts := by
    intro x hxa
    rw [hE3x x hxa]
    by_cases hxb : x = b
    · rw [hxb, hE2b]
    · rw [hE2x x hxa hxb]
  have hpredx : ∀ (l : List Nat),
      (!(l.any fun t => ¬ isRoot st2 t)) = true ↔
        ∀ t ∈ l, isRoot st2 t = true := by
    intro l
    simp
  have hmemA3 : ∀ f, f ∈ (getEog st3 a).rfacts ↔
      (f ∈ (getEog st a).rfacts ∧
        ∀ t ∈ (getFact st f).terms, isRoot st3 t = true) := by
    intro f
    rw [hE3a]
    show f ∈ fl.1 ↔ _
    rw [hfl1, hrf2a, List.mem_filter]
    constructor
    · rintro ⟨h1, h2⟩
      refine ⟨h1, ?_⟩
      intro t ht
      rw [hroot23 t]
      exact (hpredx (getFact st2 f).terms).mp h2 t ht
    · rintro ⟨h1, h2⟩
      refine ⟨h1, ?_⟩
      refine (hpredx (getFact st2 f).terms).mpr ?_
      intro t ht
      rw [← hroot23 t]
      exact h2 t ht
  have hla : (getEog st a).link = none := by
    simpa [isRoot, Option.isNone_iff_eq_none] using hra
  have hrr3 : ∀ g, g < st3.n →
      isRoot st3 (rootOf st3 (nonRootCount st3) g) = true := by
    intro g hg
    have hg2 : g < st.n := hg
    have h1 := h.rootReach g hg2
    have h2 := rootReach_link_extend st st3 a b hlink3 hlinkb3 hla hab
      (nonRootCount st) g h1
    have h3 := nonRootCount_link_lt st st3 a b rfl hb hlink3 hlinkb3 hrb
    have h4 := rootOf_stable st3 (nonRootCount st + 1) g h2
      (nonRootCount st3) h3
    rw [h4]
    exact h2
  have hlb3 : ∀ g, g < st3.n → ∀ l,
      (getEog st3 g).link = some l → l < st3.n := by
    intro g hg l hl
    by_cases hgb : g = b
    · rw [hgb, hlinkb3] at hl
      injection hl with hl2
      rw [← hl2]
      exact ha
    · rw [hlink3 g hgb] at hl
      exact h.linkBound g hg l hl
  have hLI := loopInv_entry st st3 a b aff fl.2 h rfl rfl ha hb hra hrb
    hab hfacts3 hlink3 hlinkb3 hmemA3 hrfO3
    (fun x hx => (mergeFirstLoop_spec st2 a (getEog st2 a).rfacts aff).2
      x hx)
  have hOL := mergeOtherLoop_inv fI a b hab ((getEog st3 b).rfacts) st3
    fl.1 fl.2 hLI
  have hOLl := fun g =>
    mergeOtherLoop_link fI a ((getEog st3 b).rfacts) st3 fl.1 fl.2 g
  have hOLnm := mergeOtherLoop_nm fI a ((getEog st3 b).rfacts) st3 fl.1
    fl.2
  have hPI : PassInv
      (mergeOtherLoop fI a st3 ((getEog st3 b).rfacts) fl.1 fl.2).1
      (mergeOtherLoop fI a st3 ((getEog st3 b).rfacts) fl.1 fl.2).2.2 := by
    refine passInv_of_loopInv _ a b _ hOL.1 ?_ ?_
    · intro g hg l hl
      rw [hOLl g] at hl
      rw [hOLnm.1] at hg ⊢
      exact hlb3 g hg l hl
    · intro g hg
      rw [hOLnm.1] at hg
      rw [isRoot_congr st3 _ hOLl, rootOf_congr st3 _ hOLl,
        nonRootCount_congr st3 _ hOLnm.1 hOLl]
      exact hrr3 g hg
  refine ⟨hPI, hOLnm.1, hOLnm.2, ?_⟩
  intro x hx
  exact hOL.2 x
    ((mergeFirstLoop_spec st2 a (getEog st2 a).rfacts aff).2 x hx)

end LRPG

namespace LRPG

theorem tryToMergeCore_passInv (fE fI : EOGState → Nat → Nat → Bool)
    (st : EOGState) (a b : Nat) (aff : List Nat) (iter : Nat)
    (h : PassInv st aff) (ha : a < st.n) (hb : b < st.n)
    (hra : isRoot st a = true) (hrb : isRoot st b = true)
    (hab : a ≠ b) :
    PassInv (tryToMergeCore fE fI st a b aff iter).1
        (tryToMergeCore fE fI st a b aff iter).2.1 ∧
      (tryToMergeCore fE fI st a b aff iter).1.n = st.n ∧
      (tryToMergeCore fE fI st a b aff iter).1.m = st.m ∧
      ∀ x ∈ aff, x ∈ (tryToMergeCore fE fI st a b aff iter).2.1 := by
  unfold tryToMergeCore
  by_cases h1 : (getEog st a).fingerPrint ≠ (getEog st b).fingerPrint
  · rw [if_pos h1]
    exact ⟨h, rfl, rfl, fun x hx => hx⟩
  · rw [if_neg h1]
    by_cases h2 : ¬ anyObjectReachesInitial fE st (getEog st b).eqObjs
        (getEog st a).rfacts
    · rw [if_pos h2]
      exact ⟨h, rfl, rfl, fun x hx => hx⟩
    · rw [if_neg h2]
      by_cases h3 : ¬ anyObjectReachesInitial fE st (getEog st a).eqObjs
          (getEog st b).rfacts
      · rw [if_pos h3]
        exact ⟨h, rfl, rfl, fun x hx => hx⟩
      · rw [if_neg h3]
        have hM := mergeEOG_passInv fI st a b aff h ha hb hra hrb hab
        have hPI2 : PassInv
            (setEog (mergeEOG fI st a b aff).1 b
              { getEog (mergeEOG fI st a b aff).1 b with
                  mergedAt := some iter })
            (mergeEOG fI st a b aff).2 := by
          refine passInv_congr (mergeEOG fI st a b aff).1
            (setEog (mergeEOG fI st a b aff).1 b
              { getEog (mergeEOG fI st a b aff).1 b with
                  mergedAt := some iter })
            rfl rfl ?_ ?_ (fun x => rfl) _ hM.1
          · intro x
            by_cases hxb : x = b
            · rw [hxb, getEog_setEog, if_pos rfl]
            · rw [getEog_setEog, if_neg hxb]
          · intro x
            by_cases hxb : x = b
            · rw [hxb, getEog_setEog, if_pos rfl]
            · rw [getEog_setEog, if_neg hxb]
        exact ⟨hPI2, hM.2.1, hM.2.2.1, hM.2.2.2⟩

theorem tryToMergeWith_passInv (fE fI : EOGState → Nat → Nat → Bool)
    (st : EOGState) (a b : Nat) (aff : List Nat) (iter : Nat)
    (h : PassInv st aff) (ha : a < st.n) (hb : b < st.n) :
    PassInv (tryToMergeWith fE fI st a b aff iter).1
        (tryToMergeWith fE fI st a b aff iter).2.1 ∧
      (tryToMergeWith fE fI st a b aff iter).1.n = st.n ∧
      (tryToMergeWith fE fI st a b aff iter).1.m = st.m ∧
      ∀ x ∈ aff, x ∈ (tryToMergeWith fE fI st a b aff iter).2.1 := by
  unfold tryToMergeWith
  by_cases h1 : (getEog st a).isGrounded ∨ (getEog st b).isGrounded
  · rw [if_pos h1]
    exact ⟨h, rfl, rfl, fun x hx => hx⟩
  · rw [if_neg h1]
    by_cases h2 : getRoot st a = getRoot st b
    · rw [if_pos h2]
      exact ⟨h, rfl, rfl, fun x hx => hx⟩
    · rw [if_neg h2]
      have hralt : getRoot st a < st.n := getRoot_lt st h.linkBound a ha
      have hrblt : getRoot st b < st.n := getRoot_lt st h.linkBound b hb
      have hrra : isRoot st (getRoot st a) = true :=
        getRoot_isRoot_of_reach st a (h.rootReach a ha)
      have hrrb : isRoot st (getRoot st b) = true :=
        getRoot_isRoot_of_reach st b (h.rootReach b hb)
      by_cases h3 : (getEog st a).link.isSome ∨ (getEog st b).link.isSome
      · rw [if_pos h3]
        dsimp only
        by_cases h4 : (getEog st (getRoot st a)).isGrounded ∨
            (getEog st (getRoot st b)).isGrounded
        · rw [if_pos h4]
          exact ⟨h, rfl, rfl, fun x hx => hx⟩
        · rw [if_neg h4]
          exact tryToMergeCore_passInv fE fI st (getRoot st a)
            (getRoot st b) aff iter h hralt hrblt hrra hrrb h2
      · rw [if_neg h3]
        have hla : (getEog st a).link = none := by
          cases hcase : (getEog st a).link with
          | none => rfl
          | some l =>
            exact absurd (Or.inl (by rw [hcase]; rfl)) h3
        have hlb : (getEog st b).link = none := by
          cases hcase : (getEog st b).link with
          | none => rfl
          | some l =>
            exact absurd (Or.inr (by rw [hcase]; rfl)) h3
        have hra2 : isRoot st a = true := by
          unfold isRoot
          rw [hla]
          rfl
        have hrb2 : isRoot st b = true := by
          unfold isRoot
          rw [hlb]
          rfl
        have hne : a ≠ b := fun he => h2 (he ▸ rfl)
        exact tryToMergeCore_passInv fE fI st a b aff iter h ha hb hra2
          hrb2 hne

end LRPG

namespace LRPG

theorem passInv_spiPush (st : EOGState) (g : Nat) (aff : List Nat)
    (h : PassInv st aff) :
    PassInv
      (setEog st g
        { getEog st g with
            sizePerIteration :=
              (getEog st g).sizePerIteration ++
                [(getEog st g).eqObjs.length] })
      aff := by
  refine passInv_congr st
    (setEog st g
      { getEog st g with
          sizePerIteration :=
            (getEog st g).sizePerIteration ++
              [(getEog st g).eqObjs.length] })
    rfl rfl ?_ ?_ (fun x => rfl) _ h
  · intro x
    by_cases hxg : x = g
    · rw [hxg, getEog_setEog, if_pos rfl]
    · rw [getEog_setEog, if_neg hxg]
  · intro x
    by_cases hxg : x = g
    · rw [hxg, getEog_setEog, if_pos rfl]
    · rw [getEog_setEog, if_neg hxg]

theorem ueogFold_passInv (fE fI : EOGState → Nat → Nat → Bool)
    (g iter : Nat) :
    ∀ (l : List Nat) (st : EOGState) (aff : List Nat),
      PassInv st aff → g < st.n → (∀ e ∈ l, e < st.n) →
        PassInv
            (l.foldl
              (fun (p : EOGState × List Nat) e =>
                if isRoot p.1 e then
                  let q := tryToMergeWith fE fI p.1 g e p.2 iter
                  (q.1, q.2.1)
                else p)
              (st, aff)).1
            (l.foldl
              (fun (p : EOGState × List Nat) e =>
                if isRoot p.1 e then
                  let q := tryToMergeWith fE fI p.1 g e p.2 iter
                  (q.1, q.2.1)
                else p)
              (st, aff)).2 ∧
          (l.foldl
            (fun (p : EOGState × List Nat) e =>
              if isRoot p.1 e then
                let q := tryToMergeWith fE fI p.1 g e p.2 iter
                (q.1, q.2.1)
              else p)
            (st, aff)).1.n = st.n ∧
          (l.foldl
            (fun (p : EOGState × List Nat) e =>
              if isRoot p.1 e then
                let q := tryToMergeWith fE fI p.1 g e p.2 iter
                (q.1, q.2.1)
              else p)
            (st, aff)).1.m = st.m ∧
          ∀ x ∈ aff,
            x ∈ (l.foldl
              (fun (p : EOGState × List Nat) e =>
                if isRoot p.1 e then
                  let q := tryToMergeWith fE fI p.1 g e p.2 iter
                  (q.1, q.2.1)
                else p)
              (st, aff)).2 := by
  intro l
  induction l with
  | nil =>
    intro st aff h hg _
    exact ⟨h, rfl, rfl, fun x hx => hx⟩
  | cons e es ih =>
    intro st aff h hg hall
    rw [List.foldl_cons]
    dsimp only
    by_cases hr : isRoot st e = true
    · rw [if_pos hr]
      have hT := tryToMergeWith_passInv fE fI st g e aff iter h hg
        (hall e (List.mem_cons_self e es))
      have hres := ih (tryToMergeWith fE fI st g e aff iter).1
        (tryToMergeWith fE fI st g e aff iter).2.1 hT.1
        (by rw [hT.2.1]; exact hg)
        (by intro x hx
            rw [hT.2.1]
            exact hall x (List.mem_cons_of_mem e hx))
      refine ⟨hres.1, ?_, ?_, ?_⟩
      · rw [hres.2.1, hT.2.1]
      · rw [hres.2.2.1, hT.2.2.1]
      · intro x hx
        exact hres.2.2.2 x (hT.2.2.2 x hx)
    · rw [if_neg hr]
      exact ih st aff h hg (fun x hx => hall x (List.mem_cons_of_mem e hx))

theorem updateEquivalencesEOG_passInv
    (fE fI : EOGState → Nat → Nat → Bool) (st : EOGState) (g : Nat)
    (allIds : List Nat) (aff : List Nat) (iter : Nat)
    (h : PassInv st aff) (hg : g < st.n)
    (hall : ∀ e ∈ allIds, e < st.n) :
    PassInv (updateEquivalencesEOG fE fI st g allIds aff iter).1
        (updateEquivalencesEOG fE fI st g allIds aff iter).2 ∧
      (updateEquivalencesEOG fE fI st g allIds aff iter).1.n = st.n ∧
      (updateEquivalencesEOG fE fI st g allIds aff iter).1.m = st.m ∧
      ∀ x ∈ aff,
        x ∈ (updateEquivalencesEOG fE fI st g allIds aff iter).2 := by
  unfold updateEquivalencesEOG
  dsimp only
  by_cases hr : isRoot st g = true
  · rw [if_pos hr]
    have hF := ueogFold_passInv fE fI g iter allIds st aff h hg hall
    refine ⟨passInv_spiPush _ g _ hF.1, ?_, ?_, hF.2.2.2⟩
    · exact hF.2.1
    · exact hF.2.2.1
  · rw [if_neg hr]
    exact ⟨passInv_spiPush st g aff h, rfl, rfl, fun x hx => hx⟩

end LRPG

namespace LRPG

theorem managerFoldAux_passInv (fE fI : EOGState → Nat → Nat → Bool)
    (allIds : List Nat) (iter : Nat) :
    ∀ (l : List Nat) (st : EOGState) (aff : List Nat),
      PassInv st aff → (∀ g ∈ l, g < st.n) → (∀ e ∈ allIds, e < st.n) →
        PassInv
            (l.foldl
              (fun (p : EOGState × List Nat) g =>
                updateEquivalencesEOG fE fI p.1 g allIds p.2 iter)
              (st, aff)).1
            (l.foldl
              (fun (p : EOGState × List Nat) g =>
                updateEquivalencesEOG fE fI p.1 g allIds p.2 iter)
              (st, aff)).2 ∧
          (l.foldl
            (fun (p : EOGState × List Nat) g =>
              updateEquivalencesEOG fE fI p.1 g allIds p.2 iter)
            (st, aff)).1.n = st.n ∧
          (l.foldl
            (fun (p : EOGState × List Nat) g =>
              updateEquivalencesEOG fE fI p.1 g allIds p.2 iter)
            (st, aff)).1.m = st.m ∧
          ∀ x ∈ aff,
            x ∈ (l.foldl
              (fun (p : EOGState × List Nat) g =>
                updateEquivalencesEOG fE fI p.1 g allIds p.2 iter)
              (st, aff)).2 := by
  intro l
  induction l with
  | nil =>
    intro st aff h _ _
    exact ⟨h, rfl, rfl, fun x hx => hx⟩
  | cons g gs ih =>
    intro st aff h hl hall
    rw [List.foldl_cons]
    dsimp only
    have hU := updateEquivalencesEOG_passInv fE fI st g allIds aff iter h
      (hl g (List.mem_cons_self g gs)) hall
    have hres := ih (updateEquivalencesEOG fE fI st g allIds aff iter).1
      (updateEquivalencesEOG fE fI st g allIds aff iter).2 hU.1
      (by intro x hx
          rw [hU.2.1]
          exact hl x (List.mem_cons_of_mem g hx))
      (by intro x hx
          rw [hU.2.1]
          exact hall x hx)
    refine ⟨hres.1, ?_, ?_, ?_⟩
    · rw [hres.2.1, hU.2.1]
    · rw [hres.2.2.1, hU.2.2.1]
    · intro x hx
      exact hres.2.2.2 x (hU.2.2.2 x hx)

theorem deleteRemovedFacts_mem_live (st : EOGState) (x g f : Nat)
    (h : f ∈ (getEog st g).rfacts) (hl : liveF st f) :
    f ∈ (getEog (deleteRemovedFacts st x) g).rfacts := by
  unfold deleteRemovedFacts
  by_cases hgx : g = x
  · rw [hgx] at h ⊢
    rw [getEog_setEog, if_pos rfl]
    refine List.mem_filter.mpr ⟨h, ?_⟩
    simp only [decide_eq_true_eq]
    intro hmk
    unfold isMarkedForRemoval at hmk
    unfold liveF at hl
    rw [hl] at hmk
    simp at hmk
  · rw [getEog_setEog, if_neg hgx]
    exact h

theorem cleanupFold_mem_live (l : List Nat) :
    ∀ (st : EOGState) (g f : Nat), f ∈ (getEog st g).rfacts →
      liveF st f → f ∈ (getEog (cleanupFold l st) g).rfacts := by
  induction l with
  | nil =>
    intro st g f h _
    exact h
  | cons x xs ih =>
    intro st g f h hl
    simp only [cleanupFold, List.foldl_cons]
    by_cases hr : isRoot st x = true
    · rw [if_pos hr]
      have h2 := deleteRemovedFacts_mem_live st x g f h hl
      have hl2 : liveF (deleteRemovedFacts st x) f := hl
      exact ih (deleteRemovedFacts st x) g f h2 hl2
    · rw [if_neg hr]
      exact ih st g f h hl

theorem cleanupFold_passInv (aff : List Nat) (st : EOGState)
    (h : PassInv st aff) : PassInv (cleanupFold aff st) [] := by
  obtain ⟨lb, rr, fb, tb, lr, rg, oR, mc⟩ := h
  have hlink := cleanupFold_link aff st
  have hfacts := cleanupFold_facts aff st
  have hnm := cleanupFold_nm aff st
  have hroot : ∀ x, isRoot (cleanupFold aff st) x = isRoot st x :=
    fun x => isRoot_congr_at st (cleanupFold aff st) x (hlink x)
  have hlive : ∀ f, liveF (cleanupFold aff st) f ↔ liveF st f := by
    intro f
    unfold liveF
    rw [hfacts f]
  refine ⟨?_, ?_, ?_, ?_, ?_, ?_, ?_, ?_⟩
  · intro g hg l hl
    rw [hnm.1] at hg ⊢
    rw [hlink g] at hl
    exact lb g hg l hl
  · intro g hg
    rw [hnm.1] at hg
    rw [hroot _, rootOf_congr st _ hlink,
      nonRootCount_congr st _ hnm.1 hlink]
    exact rr g hg
  · intro g hg f hf
    rw [hnm.1] at hg
    rw [hnm.2]
    exact fb g hg f (cleanupFold_rfacts_subset aff st g f hf)
  · intro f hf t ht
    rw [hnm.2] at hf
    rw [hfacts f] at ht
    rw [hnm.1]
    exact tb f hf t ht
  · intro f hf hl t ht
    rw [hnm.2] at hf
    rw [hlive f] at hl
    rw [hfacts f] at ht
    rw [hroot t]
    exact lr f hf hl t ht
  · intro f hf hl t ht
    rw [hnm.2] at hf
    rw [hlive f] at hl
    rw [hfacts f] at ht
    exact cleanupFold_mem_live aff st t f (rg f hf hl t ht)
      ((hlive f).mp ((hlive f).mpr hl))
  · intro g hg hgr f hf hl
    rw [hnm.1] at hg
    rw [hroot g] at hgr
    rw [hlive f] at hl
    rw [hfacts f]
    exact oR g hg hgr f (cleanupFold_rfacts_subset aff st g f hf) hl
  · intro g hg hgr f hf hnl
    rw [hnm.1] at hg
    rw [hroot g] at hgr
    have hnl2 : ¬ liveF st f := fun h2 => hnl ((hlive f).mpr h2)
    by_cases hmem : g ∈ aff
    · exact absurd (cleanupFold_no_marked aff st g hmem hgr f hf) hnl2
    · exact absurd
        (mc g hg hgr f (cleanupFold_rfacts_subset aff st g f hf) hnl2)
        hmem

theorem updateEquivalencesManager_passInv
    (fE fI : EOGState → Nat → Nat → Bool) (st : EOGState) (iter : Nat)
    (h : PassInv st []) :
    PassInv (updateEquivalencesManager fE fI st iter) [] := by
  unfold updateEquivalencesManager managerFold
  dsimp only
  have hM := managerFoldAux_passInv fE fI (List.range st.n) iter
    (List.range st.n) st [] h (fun g hg => List.mem_range.mp hg)
    (fun e he => List.mem_range.mp he)
  exact cleanupFold_passInv _ _ hM.1

end LRPG

namespace LRPG

theorem exStC5_passInv : PassInv exStC5 [] := by
  refine ⟨?_, ?_, ?_, ?_, ?_, ?_, ?_, ?_⟩
  · intro g hg l hl
    exact Option.noConfusion hl
  · intro g hg
    rfl
  · intro g hg f hf
    have hf2 : f ∈ [0] := hf
    rw [List.mem_singleton] at hf2
    rw [hf2]
    exact Nat.zero_lt_one
  · intro f hf t ht
    have ht2 : t ∈ [0] := ht
    rw [List.mem_singleton] at ht2
    rw [ht2]
    exact Nat.zero_lt_one
  · intro f hf hl t ht
    rfl
  · intro f hf hl t ht
    have hf2 : f = 0 := Nat.lt_one_iff.mp hf
    rw [hf2]
    exact List.mem_singleton.mpr rfl
  · intro g hg hgr f hf hl
    have hg2 : g = 0 := Nat.lt_one_iff.mp hg
    rw [hg2]
    exact Or.inr (List.mem_singleton.mpr rfl)
  · intro g hg hgr f hf hnl
    exact absurd rfl hnl

/-- C5: after every call to the manager updateEquivalences returns, no
reachable fact in the list of any root group has a term pointing to a
non-root group, assuming the standing registration invariant of the
manager state (links in range and rooted, live facts registered with
root terms, tombstones covered by the affected list). -/
theorem C5_root_closure_after_updateEquivalences
    (fE fI : EOGState → Nat → Nat → Bool) (st : EOGState) (iter : Nat)
    (h : PassInv st []) :
    ∀ g, g < (updateEquivalencesManager fE fI st iter).n →
      isRoot (updateEquivalencesManager fE fI st iter) g = true →
      ∀ f ∈ (getEog (updateEquivalencesManager fE fI st iter) g).rfacts,
        ∀ t ∈ (getFact (updateEquivalencesManager fE fI st iter) f).terms,
          isRoot (updateEquivalencesManager fE fI st iter) t = true := by
  have hP := updateEquivalencesManager_passInv fE fI st iter h
  intro g hg hr f hf t ht
  have hflt := hP.factBound g hg f hf
  have hlive : liveF (updateEquivalencesManager fE fI st iter) f := by
    by_contra hnl
    cases hP.markedCovered g hg hr f hf hnl
  exact hP.liveRoot f hflt hlive t ht

theorem C5_root_closure_after_updateEquivalences_witness :
    PassInv exStC5 [] ∧
      ∀ g, g < (updateEquivalencesManager exC5f exC5f exStC5 0).n →
        isRoot (updateEquivalencesManager exC5f exC5f exStC5 0) g =
          true →
        ∀ f ∈ (getEog (updateEquivalencesManager exC5f exC5f exStC5 0)
            g).rfacts,
          ∀ t ∈ (getFact (updateEquivalencesManager exC5f exC5f exStC5 0)
              f).terms,
            isRoot (updateEquivalencesManager exC5f exC5f exStC5 0) t =
              true :=
  ⟨exStC5_passInv,
    C5_root_closure_after_updateEquivalences exC5f exC5f exStC5 0
      exStC5_passInv⟩

end LRPG
